import Mathlib

/-! extract: selector matching and first-match search over an HTML tree

A shallow embedding of `extract.go`.

* Go strings are modelled as `String`: a `String` stands for a byte string that
  is well-formed UTF-8. The byte-level prefix, suffix and split operations are
  modelled on the characters of the string; for well-formed UTF-8 text and the
  ASCII literals used by the code the two views coincide.
* The selector scan (`for _, c := range q`) reads runes. `parseQuery` is the
  scan on the runes of the selector, and `parseQueryBytes` takes a selector
  given by its bytes, well-formed UTF-8 or not, and decodes it as `range` does.
* `html.Node` is modelled as a tree value: the `FirstChild`/`NextSibling` chain
  is the list `children`.
* `html.Parse` and `html.Render` are external; they are parameters.
-/

namespace Extract

/-- Node types of `golang.org/x/net/html`. -/
inductive NodeType where
  | ErrorNode
  | TextNode
  | DocumentNode
  | ElementNode
  | CommentNode
  | DoctypeNode
  | RawNode
  deriving DecidableEq, Repr

/-- An attribute of `html.Node`. -/
structure Attribute where
  Namespace : String
  Key : String
  Val : String
  deriving DecidableEq, Repr

/-- The part of `html.Node` that the program reads. Every node type carries the
fields `Data` and `Attr`, as in the Go struct. -/
inductive Node where
  | mk (Typ : NodeType) (Data : String) (Attr : List Attribute) (children : List Node)

namespace Node

/-- Field `Type`. -/
def Typ : Node → NodeType
  | mk t _ _ _ => t

/-- Field `Data`. -/
def Data : Node → String
  | mk _ d _ _ => d

/-- Field `Attr`. -/
def Attr : Node → List Attribute
  | mk _ _ a _ => a

/-- The chain `FirstChild`, `NextSibling`, ... -/
def children : Node → List Node
  | mk _ _ _ cs => cs

end Node

/-- The compiled selector. -/
structure query where
  name : String
  id : String
  classes : List String
  deriving DecidableEq, Repr

/-- Loop of `stringSliceContains`. -/
def stringSliceContains : List String → String → Bool
  | [], _ => false
  | s :: slice, value => if s = value then true else stringSliceContains slice value

/-- Characters of `strings.Split(s, " ")`: cut at every space. -/
def splitSpaceChars : List Char → List (List Char)
  | [] => [[]]
  | c :: cs =>
    if c = ' ' then [] :: splitSpaceChars cs
    else
      match splitSpaceChars cs with
      | [] => [[c]]
      | t :: ts => (c :: t) :: ts

/-- Model of `strings.Split(s, " ")`. -/
def stringsSplitSpace (s : String) : List String :=
  (splitSpaceChars s.data).map String.mk

namespace query

/-- Method `matchesName`. -/
def matchesName (q : query) (n : Node) : Bool :=
  if q.name = "" ∨ (n.Typ = NodeType.ElementNode ∧ n.Data = q.name) then true
  else false

/-- The attribute loop of `matchesID`. -/
def matchesIDLoop (q : query) : List Attribute → Bool
  | [] => false
  | a :: rest =>
    if (a.Key = "id" ∨ a.Key = "ID") ∧ a.Val = q.id then true
    else matchesIDLoop q rest

/-- Method `matchesID`. -/
def matchesID (q : query) (n : Node) : Bool :=
  if q.id = "" then true
  else matchesIDLoop q n.Attr

/-- The inner loop of `matchesClasses` over the required classes, carrying the
flag `matches`. -/
def matchesClassesInner (classes : List String) : List String → Bool → Bool
  | [], m => m
  | cls :: rest, m =>
    if !stringSliceContains classes cls then matchesClassesInner classes rest false
    else matchesClassesInner classes rest m

/-- The attribute loop of `matchesClasses`. -/
def matchesClassesLoop (q : query) : List Attribute → Bool
  | [] => false
  | a :: rest =>
    if a.Key = "class" ∨ a.Key = "CLASS" then
      if matchesClassesInner (stringsSplitSpace a.Val) q.classes true then true
      else matchesClassesLoop q rest
    else matchesClassesLoop q rest

/-- Method `matchesClasses`. -/
def matchesClasses (q : query) (n : Node) : Bool :=
  if q.classes.length = 0 then true
  else matchesClassesLoop q n.Attr

/-- Method `matches`. -/
def «matches» (q : query) (n : Node) : Bool :=
  q.matchesName n && q.matchesID n && q.matchesClasses n

end query

/-- The envelope constant `prefix` of `nodeToString`. -/
def envPrefix : String := "<html><head></head><body>"

/-- The envelope constant `suffix` of `nodeToString`. -/
def envSuffix : String := "</body></html>"

/-- Model of `strings.HasPrefix`. -/
def hasPrefix (s p : String) : Bool := p.data.isPrefixOf s.data

/-- Model of `strings.HasSuffix`. -/
def hasSuffix (s p : String) : Bool := p.data.isSuffixOf s.data

/-- The two stripping steps of `nodeToString`, applied to the rendered text. -/
def stripEnvelope (rendered : String) : String :=
  let result := rendered
  let result :=
    if hasPrefix result envPrefix then String.mk (result.data.drop envPrefix.data.length)
    else result
  let result :=
    if hasSuffix result envSuffix then
      String.mk (result.data.take (result.data.length - envSuffix.data.length))
    else result
  result

/-- Function `nodeToString`; `render` stands for `html.Render` into a buffer. -/
def nodeToString (render : Node → String) (node : Node) : String :=
  stripEnvelope (render node)

/-- The variables captured by the closure `next` of `parseQuery`: `result`,
`mode` (0 = name, 1 = id, 2 = class) and the buffer `b`. -/
structure ParseState where
  result : query
  mode : Nat
  b : String
  deriving DecidableEq, Repr

/-- The closure `next` of `parseQuery`. -/
def parseQuery.next (st : ParseState) (newMode : Nat) : ParseState :=
  let s := st.b
  let prevMode := st.mode
  if s.length = 0 then { result := st.result, mode := newMode, b := "" }
  else
    match prevMode with
    | 0 => { result := { st.result with name := s }, mode := newMode, b := "" }
    | 1 => { result := { st.result with id := s }, mode := newMode, b := "" }
    | 2 => { result := { st.result with classes := st.result.classes ++ [s] },
             mode := newMode, b := "" }
    | _ => { result := st.result, mode := newMode, b := "" }

/-- One iteration of the loop `for _, c := range q` of `parseQuery`. -/
def parseQuery.step (st : ParseState) (c : Char) : ParseState :=
  if c = '#' then parseQuery.next st 1
  else if c = '.' then parseQuery.next st 2
  else { st with b := st.b.push c }

/-- The state of `parseQuery` before the loop. -/
def parseQuery.init : ParseState :=
  { result := { name := "", id := "", classes := [] }, mode := 0, b := "" }

/-- Function `parseQuery`, on the runes of the selector: `q` holds the runes that
`for _, c := range q` yields. A well-formed selector is its own sequence of runes;
`parseQueryBytes` below takes any selector by its bytes. -/
def parseQuery (q : String) : query :=
  (parseQuery.next (q.data.foldl parseQuery.step parseQuery.init) 0).result

mutual
/-- The closure `f` of `HTML`. -/
def HTML.f (render : Node → String) (q : query) : Node → String
  | Node.mk t d a cs =>
    if q.matches (Node.mk t d a cs) then nodeToString render (Node.mk t d a cs)
    else HTML.fLoop render q cs
/-- The loop of `f` over the children `c := n.FirstChild; c != nil; c = c.NextSibling`. -/
def HTML.fLoop (render : Node → String) (q : query) : List Node → String
  | [] => ""
  | c :: rest =>
    let result := HTML.f render q c
    if result ≠ "" then result else HTML.fLoop render q rest
end

/-- The result of `html.Parse`: the document or the text of the error. -/
abbrev ParseResult := Except String Node

/-- Function `HTML`. The reader is `r`, `parse` stands for `html.Parse`; the
result is the pair of the returned string and the returned error (`none` is
`nil`, `some e` an error with text `e`). -/
def HTML {ρ : Type} (parse : ρ → ParseResult) (render : Node → String) (r : ρ) (qs : String) :
    String × Option String :=
  let q := parseQuery qs
  match parse r with
  | Except.error err => ("", some ("parse html error: " ++ err))
  | Except.ok doc => (HTML.f render q doc, none)

/-! ## Pre-order enumeration of a tree -/

mutual
/-- The nodes of a tree in pre-order: a node before its children, the children
left to right. -/
def preorder : Node → List Node
  | Node.mk t d a cs => Node.mk t d a cs :: preorderList cs
/-- Pre-order of a list of sibling trees. -/
def preorderList : List Node → List Node
  | [] => []
  | c :: rest => preorder c ++ preorderList rest
end

/-! ## A reference serializer for the examples

`html.Render` is external. The examples are evaluated with the serializer below.
It follows `golang.org/x/net/html` on the nodes of the examples: document nodes,
text nodes and elements with attributes. Text and attribute values are escaped,
an element is written as its start tag, its children and its end tag, and a void
element is written as `<br/>`. It is not a model of `html.Render` on other
nodes: comment and doctype nodes are written as the empty string, and the
elements with raw-text children (`script`, `style`, ...) and with a leading
newline (`pre`, `textarea`, `listing`) are written like any other element. No
example holds such a node. -/

/-- Escaping of one character in text and attribute values. -/
def escapeChar (c : Char) : List Char :=
  if c = '&' then "&amp;".data
  else if c = Char.ofNat 39 then "&#39;".data
  else if c = '<' then "&lt;".data
  else if c = '>' then "&gt;".data
  else if c = Char.ofNat 34 then "&#34;".data
  else if c = Char.ofNat 13 then "&#13;".data
  else [c]

/-- Escaping of a string. -/
def escape (s : String) : String :=
  String.mk (s.data.flatMap escapeChar)

/-- The attributes of a start tag. -/
def renderAttrs : List Attribute → String
  | [] => ""
  | a :: rest =>
    " " ++ (if a.Namespace = "" then "" else a.Namespace ++ ":") ++ a.Key ++ "=\"" ++
      escape a.Val ++ "\"" ++ renderAttrs rest

/-- The void elements. -/
def voidElements : List String :=
  ["area", "base", "br", "col", "embed", "hr", "img", "input", "keygen", "link", "meta",
   "param", "source", "track", "wbr"]

mutual
/-- The reference serializer on a node. A void element with children is written
up to the point where `html.Render` stops with an error. -/
def renderRef : Node → String
  | Node.mk NodeType.TextNode d _ _ => escape d
  | Node.mk NodeType.DocumentNode _ _ cs => renderRefList cs
  | Node.mk NodeType.ElementNode d a cs =>
    if d ∈ voidElements then
      if cs.isEmpty then "<" ++ d ++ renderAttrs a ++ "/>" else "<" ++ d ++ renderAttrs a
    else "<" ++ d ++ renderAttrs a ++ ">" ++ renderRefList cs ++ "</" ++ d ++ ">"
  | Node.mk _ _ _ _ => ""
/-- The reference serializer on a list of siblings. -/
def renderRefList : List Node → String
  | [] => ""
  | c :: rest => renderRef c ++ renderRefList rest
end

/-- An element node without attributes. -/
def elem (tag : String) (children : List Node) : Node :=
  Node.mk NodeType.ElementNode tag [] children

/-- An element node with one attribute. -/
def elemAttr (tag key val : String) (children : List Node) : Node :=
  Node.mk NodeType.ElementNode tag [{ Namespace := "", Key := key, Val := val }] children

/-- A text node. -/
def text (data : String) : Node :=
  Node.mk NodeType.TextNode data [] []

/-- The document that wraps the children of `body`: the shape the parser gives
to a bare fragment. -/
def document (body : List Node) : Node :=
  Node.mk NodeType.DocumentNode "" [] [elem "html" [elem "head" [], elem "body" body]]

/-- The tree of `<p>Foo <h1>Hello World</h1> Bar</p>`: the start tag of `h1`
closes the open `p`, and the stray `</p>` makes an empty `p`. -/
def docNested : Node :=
  document [elem "p" [text "Foo "], elem "h1" [text "Hello World"], text " Bar", elem "p" []]

/-- The tree of `<a class="foo">1</a><a class="bar">2</a><a class="baz">3</a>`. -/
def docClasses : Node :=
  document [elemAttr "a" "class" "foo" [text "1"], elemAttr "a" "class" "bar" [text "2"],
    elemAttr "a" "class" "baz" [text "3"]]

/-- The tree of `<a id="a">1</a><a id="b">2</a><a id="c">3</a>`. -/
def docIds : Node :=
  document [elemAttr "a" "id" "a" [text "1"], elemAttr "a" "id" "b" [text "2"],
    elemAttr "a" "id" "c" [text "3"]]

/-- A tree with two `html` elements under the document node: the first one is
empty, the second one holds the text `x`. -/
def docTwoHtml : Node :=
  Node.mk NodeType.DocumentNode "" []
    [elem "html" [elem "head" [], elem "body" []],
     elem "html" [elem "head" [], elem "body" [text "x"]]]

/-! ## Selector segments -/

/-- The text of a selector segment: the delimiter of its kind (1 = id,
otherwise class) followed by its body. -/
def segText (s : Nat × String) : String :=
  (if s.1 = 1 then "#" else ".") ++ s.2

/-- The result after the flush of the buffer `s.2` collected in mode `s.1`. -/
def flushSeg (r : query) (s : Nat × String) : query :=
  (parseQuery.next { result := r, mode := s.1, b := s.2 } 0).result

/-- The body of a class segment. -/
def classBody (s : Nat × String) : Option String :=
  if s.1 = 2 then some s.2 else none

/-- The body of an id segment. -/
def idBody (s : Nat × String) : Option String :=
  if s.1 = 1 then some s.2 else none

/-- The characters `#` and `.` do not occur in the string. -/
def noDelim (s : String) : Prop :=
  '#' ∉ s.data ∧ '.' ∉ s.data

instance (s : String) : Decidable (noDelim s) := by
  unfold noDelim; infer_instance

/-- The cut of a selector at every `#` and `.`: the initial segment (before the
first delimiter) and the later segments, each with the kind of the delimiter
just before it (1 for `#`, 2 for `.`) and its body. -/
def cutChars : List Char → List Char × List (Nat × List Char)
  | [] => ([], [])
  | c :: cs =>
    if c = '#' then ([], (1, (cutChars cs).1) :: (cutChars cs).2)
    else if c = '.' then ([], (2, (cutChars cs).1) :: (cutChars cs).2)
    else (c :: (cutChars cs).1, (cutChars cs).2)

/-- The initial segment of a selector. -/
def initialSegment (s : String) : String :=
  String.mk (cutChars s.data).1

/-- The segments of a selector after the initial one, with their kinds. -/
def laterSegments (s : String) : List (Nat × String) :=
  (cutChars s.data).2.map (fun p => (p.1, String.mk p.2))

/-- The non-empty id segments of a selector, in their order of appearance. -/
def idSegments (s : String) : List String :=
  ((laterSegments s).filter (fun p => p.1 = 1 ∧ p.2 ≠ "")).map Prod.snd

/-- The non-empty class segments of a selector, in their order of appearance. -/
def classSegments (s : String) : List String :=
  ((laterSegments s).filter (fun p => p.1 = 2 ∧ p.2 ≠ "")).map Prod.snd

/-- The attribute loop of `matchesClasses`, with the empty tokens removed from
the split attribute value. -/
def matchesClassesLoopNoEmpty (q : query) : List Attribute → Bool
  | [] => false
  | a :: rest =>
    if a.Key = "class" ∨ a.Key = "CLASS" then
      if query.matchesClassesInner ((stringsSplitSpace a.Val).filter (fun t => t ≠ ""))
          q.classes true then true
      else matchesClassesLoopNoEmpty q rest
    else matchesClassesLoopNoEmpty q rest

/-- The classes check on the split attribute value without its empty tokens. -/
def matchesClassesNoEmpty (q : query) (n : Node) : Bool :=
  if q.classes.length = 0 then true
  else matchesClassesLoopNoEmpty q n.Attr

mutual
/-- The nodes of a tree in pre-order, each with the list of its proper
ancestors (nearest first); `anc` holds the ancestors of the root of the tree. -/
def preorderAnc (anc : List Node) : Node → List (List Node × Node)
  | Node.mk t d a cs =>
    (anc, Node.mk t d a cs) :: preorderAncList (Node.mk t d a cs :: anc) cs
/-- Pre-order with ancestors of a list of sibling trees. -/
def preorderAncList (anc : List Node) : List Node → List (List Node × Node)
  | [] => []
  | c :: rest => preorderAnc anc c ++ preorderAncList anc rest
end

/-- The test of `topMatches` on a node with its proper ancestors: the node
satisfies the query and none of its proper ancestors does. -/
def isTopMatch (q : query) (p : List Node × Node) : Bool :=
  q.matches p.2 && p.1.all (fun a => !q.matches a)

/-- The nodes, in pre-order, that satisfy the query and have no proper ancestor
that satisfies it. -/
def topMatches (q : query) (doc : Node) : List Node :=
  ((preorderAnc [] doc).filter (isTopMatch q)).map Prod.snd

/-- The text starts with `p`. -/
def startsWith (r p : String) : Prop := ∃ t : String, r = p ++ t

/-- The text ends with `p`. -/
def endsWith (r p : String) : Prop := ∃ t : String, r = t ++ p

/-- An `html` element that carries `lang="en"` and holds the text `x` in its
body. -/
def htmlWithAttr : Node :=
  elemAttr "html" "lang" "en" [elem "head" [], elem "body" [text "x"]]

/-- The serialization of the first node of the list whose `nodeToString` is
not empty, and the empty string when there is none. -/
def firstNonEmpty (render : Node → String) (l : List Node) : String :=
  ((l.find? (fun m => nodeToString render m ≠ "")).map (nodeToString render)).getD ""

/-! ## Selectors as byte strings

A Go string is a sequence of bytes, and a Lean `String` is a sequence of
characters: it stands for a byte string that is well-formed UTF-8. A selector
that is not well-formed UTF-8 is given by its bytes. The loop
`for _, c := range q` of `parseQuery` reads a selector rune by rune, and every
byte that does not start a well-formed encoding is read as `utf8.RuneError`
(U+FFFD) of width one; `b.WriteRune(c)` writes the encoding of the rune. -/

/-- The rune `utf8.RuneError`. -/
def runeError : Nat := 0xFFFD

/-- The continuation bytes `0x80..0xBF`. -/
def isCont (b : Nat) : Bool := 0x80 ≤ b && b ≤ 0xBF

/-- The decoding step of `range` over a string (`utf8.DecodeRuneInString`): the
rune at the head of the bytes and its width. A byte is a number below 256. -/
def decodeRune : List Nat → Nat × Nat
  | [] => (runeError, 0)
  | s0 :: rest =>
    if s0 < 0x80 then (s0, 1)
    else if s0 < 0xC2 then (runeError, 1)
    else if s0 < 0xE0 then
      match rest with
      | s1 :: _ =>
        if isCont s1 then (s0 % 32 * 64 + s1 % 64, 2) else (runeError, 1)
      | _ => (runeError, 1)
    else if s0 < 0xF0 then
      match rest with
      | s1 :: s2 :: _ =>
        if (if s0 = 0xE0 then 0xA0 else 0x80) ≤ s1 ∧ s1 ≤ (if s0 = 0xED then 0x9F else 0xBF) then
          if isCont s2 then (s0 % 16 * 4096 + s1 % 64 * 64 + s2 % 64, 3) else (runeError, 1)
        else (runeError, 1)
      | _ => (runeError, 1)
    else if s0 < 0xF5 then
      match rest with
      | s1 :: s2 :: s3 :: _ =>
        if (if s0 = 0xF0 then 0x90 else 0x80) ≤ s1 ∧ s1 ≤ (if s0 = 0xF4 then 0x8F else 0xBF) then
          if isCont s2 then
            if isCont s3 then
              (s0 % 8 * 262144 + s1 % 64 * 4096 + s2 % 64 * 64 + s3 % 64, 4)
            else (runeError, 1)
          else (runeError, 1)
        else (runeError, 1)
      | _ => (runeError, 1)
    else (runeError, 1)

/-- The runes that `for _, c := range q` yields on the bytes of `q`; `skip`
counts the bytes of the current rune that are still to be passed over. Every
decoded rune is a Unicode scalar value (`decodeRune_valid`), so `Char.ofNat`
keeps it. -/
def rangeRunes : Nat → List Nat → List Char
  | _, [] => []
  | skip + 1, _ :: rest => rangeRunes skip rest
  | 0, b :: rest =>
    Char.ofNat (decodeRune (b :: rest)).1 :: rangeRunes ((decodeRune (b :: rest)).2 - 1) rest

/-- The selector as the scan of `parseQuery` reads it. -/
def decodeString (q : List Nat) : String :=
  String.mk (rangeRunes 0 q)

/-- The bytes that `WriteRune` writes for a rune (`utf8.AppendRune`). -/
def encodeRune (r : Nat) : List Nat :=
  if r < 0x80 then [r]
  else if r < 0x800 then [0xC0 + r / 64, 0x80 + r % 64]
  else if (0xD800 ≤ r ∧ r ≤ 0xDFFF) ∨ 0x10FFFF < r then [0xEF, 0xBF, 0xBD]
  else if r < 0x10000 then [0xE0 + r / 4096, 0x80 + r / 64 % 64, 0x80 + r % 64]
  else [0xF0 + r / 262144, 0x80 + r / 4096 % 64, 0x80 + r / 64 % 64, 0x80 + r % 64]

/-- The bytes of a well-formed string. -/
def utf8 (s : String) : List Nat :=
  s.data.flatMap (fun c => encodeRune c.toNat)

/-- Function `parseQuery` on a selector given by its bytes: the scan runs over
the runes that `range` yields, and the fields of the result are the contents of
the buffer, written rune by rune. -/
def parseQueryBytes (q : List Nat) : query :=
  parseQuery (decodeString q)

/-- The bytes of a selector before its first `#` or `.`. -/
def initialSegmentBytes (q : List Nat) : List Nat :=
  q.takeWhile (fun b => b ≠ 0x23 ∧ b ≠ 0x2E)

/-! ## The trees that the parser returns -/

/-- The attributes that `html.Parse` gives to a node: an element node carries
the attributes of its tag, a doctype node only the keys `public` and `system`,
and every other node (text, comment, document) none. -/
def parsedAttrs (n : Node) : Prop :=
  match n.Typ with
  | NodeType.ElementNode => True
  | NodeType.DoctypeNode => ∀ a ∈ n.Attr, a.Key = "public" ∨ a.Key = "system"
  | _ => n.Attr = []

/-! ## The predicate -/

theorem stringSliceContains_iff (slice : List String) (value : String) :
    stringSliceContains slice value = true ↔ value ∈ slice := by
  induction slice with
  | nil => simp [stringSliceContains]
  | cons s rest ih =>
    by_cases h : s = value
    · simp [stringSliceContains, h]
    · have h2 : ¬ value = s := fun e => h e.symm
      simp [stringSliceContains, h, h2, ih]

theorem matchesClassesInner_iff (classes req : List String) (m : Bool) :
    query.matchesClassesInner classes req m = true ↔ m = true ∧ ∀ c ∈ req, c ∈ classes := by
  induction req generalizing m with
  | nil => simp [query.matchesClassesInner]
  | cons c rest ih =>
    by_cases h : c ∈ classes
    · have hc : stringSliceContains classes c = true := (stringSliceContains_iff _ _).2 h
      simp [query.matchesClassesInner, hc, ih, h]
    · have hc : stringSliceContains classes c = false := by
        cases hb : stringSliceContains classes c with
        | false => rfl
        | true => exact absurd ((stringSliceContains_iff _ _).1 hb) h
      simp [query.matchesClassesInner, hc, ih, h]

theorem matchesIDLoop_iff (q : query) (attrs : List Attribute) :
    q.matchesIDLoop attrs = true ↔
      ∃ a ∈ attrs, (a.Key = "id" ∨ a.Key = "ID") ∧ a.Val = q.id := by
  induction attrs with
  | nil => simp [query.matchesIDLoop]
  | cons a rest ih =>
    by_cases h : (a.Key = "id" ∨ a.Key = "ID") ∧ a.Val = q.id
    · simp only [query.matchesIDLoop, if_pos h, true_iff]
      exact ⟨a, List.mem_cons_self _ _, h⟩
    · simp only [query.matchesIDLoop, if_neg h, ih, List.exists_mem_cons_iff]
      exact ⟨fun hx => Or.inr hx, fun hx => hx.resolve_left h⟩

theorem matchesClassesLoop_iff (q : query) (attrs : List Attribute) :
    q.matchesClassesLoop attrs = true ↔
      ∃ a ∈ attrs, (a.Key = "class" ∨ a.Key = "CLASS") ∧
        ∀ c ∈ q.classes, c ∈ stringsSplitSpace a.Val := by
  induction attrs with
  | nil => simp [query.matchesClassesLoop]
  | cons a rest ih =>
    by_cases hk : a.Key = "class" ∨ a.Key = "CLASS"
    · by_cases hm : query.matchesClassesInner (stringsSplitSpace a.Val) q.classes true = true
      · simp only [query.matchesClassesLoop, if_pos hk, if_pos hm, true_iff]
        exact ⟨a, List.mem_cons_self _ _, hk, ((matchesClassesInner_iff _ _ _).1 hm).2⟩
      · simp only [query.matchesClassesLoop, if_pos hk, if_neg hm, ih,
          List.exists_mem_cons_iff]
        refine ⟨fun hx => Or.inr hx, fun hx => hx.resolve_left ?_⟩
        intro hbad
        exact hm ((matchesClassesInner_iff _ _ _).2 ⟨rfl, hbad.2⟩)
    · simp only [query.matchesClassesLoop, if_neg hk, ih, List.exists_mem_cons_iff]
      exact ⟨fun hx => Or.inr hx, fun hx => hx.resolve_left (fun hbad => hk hbad.1)⟩

theorem matchesName_iff (q : query) (n : Node) :
    q.matchesName n = true ↔
      q.name = "" ∨ (n.Typ = NodeType.ElementNode ∧ n.Data = q.name) := by
  unfold query.matchesName
  split <;> simp_all

theorem matchesID_iff (q : query) (n : Node) :
    q.matchesID n = true ↔
      q.id = "" ∨ ∃ a ∈ n.Attr, (a.Key = "id" ∨ a.Key = "ID") ∧ a.Val = q.id := by
  unfold query.matchesID
  by_cases h : q.id = ""
  · simp [h]
  · rw [if_neg h, matchesIDLoop_iff]
    simp only [h, false_or]

theorem matchesClasses_iff (q : query) (n : Node) :
    q.matchesClasses n = true ↔
      q.classes = [] ∨ ∃ a ∈ n.Attr, (a.Key = "class" ∨ a.Key = "CLASS") ∧
        ∀ c ∈ q.classes, c ∈ stringsSplitSpace a.Val := by
  unfold query.matchesClasses
  by_cases h : q.classes = []
  · simp [h]
  · have hl : ¬ q.classes.length = 0 := fun e => h (List.length_eq_zero.1 e)
    rw [if_neg hl, matchesClassesLoop_iff]
    simp only [h, false_or]

theorem matches_iff (q : query) (n : Node) :
    q.matches n = true ↔
      q.matchesName n = true ∧ q.matchesID n = true ∧ q.matchesClasses n = true := by
  simp [query.matches, and_assoc]

theorem splitSpaceChars_eq_splitOn (l : List Char) : splitSpaceChars l = l.splitOn ' ' := by
  induction l with
  | nil => simp [splitSpaceChars, List.splitOn]
  | cons c cs ih =>
    unfold List.splitOn at ih ⊢
    rw [List.splitOnP_cons]
    by_cases h : c = ' '
    · simp [splitSpaceChars, h, ih]
    · simp only [splitSpaceChars, if_neg h, ih]
      have hne := List.splitOnP_ne_nil (fun x => x == ' ') cs
      cases hs : List.splitOnP (fun x => x == ' ') cs with
      | nil => exact absurd hs hne
      | cons t ts => simp [h, List.modifyHead]

theorem stringsSplitSpace_data (v : String) :
    (stringsSplitSpace v).map String.data = v.data.splitOn ' ' := by
  simp [stringsSplitSpace, splitSpaceChars_eq_splitOn, Function.comp_def]

theorem stringsSplitSpace_intercalate (v : String) :
    String.mk ([' '].intercalate ((stringsSplitSpace v).map String.data)) = v := by
  rw [stringsSplitSpace_data, List.intercalate_splitOn]

theorem splitSpaceChars_no_space (l : List Char) :
    ∀ t ∈ splitSpaceChars l, ' ' ∉ t := by
  induction l with
  | nil => simp [splitSpaceChars]
  | cons c cs ih =>
    by_cases h : c = ' '
    · simpa [splitSpaceChars, h] using ih
    · simp only [splitSpaceChars, if_neg h]
      cases hs : splitSpaceChars cs with
      | nil => simpa using fun e => h e.symm
      | cons t ts =>
        rw [hs] at ih
        intro u hu
        rcases List.mem_cons.1 hu with rfl | hu
        · have := ih t (List.mem_cons_self _ _)
          simpa [this] using fun e => h e.symm
        · exact ih u (List.mem_cons_of_mem _ hu)

theorem stringsSplitSpace_no_space (v t : String) (ht : t ∈ stringsSplitSpace v) :
    ' ' ∉ t.data := by
  obtain ⟨l, hl, rfl⟩ := List.mem_map.1 ht
  exact splitSpaceChars_no_space _ l hl

theorem stringsSplitSpace_of_tokens (ts : List String) (hts : ts ≠ [])
    (hsp : ∀ t ∈ ts, ' ' ∉ t.data) :
    stringsSplitSpace (String.mk ([' '].intercalate (ts.map String.data))) = ts := by
  have h : ([' '].intercalate (ts.map String.data)).splitOn ' ' = ts.map String.data :=
    List.splitOn_intercalate (ts.map String.data) ' '
      (by intro l hl; obtain ⟨t, ht, rfl⟩ := List.mem_map.1 hl; exact hsp t ht)
      (by simpa using hts)
  simp only [stringsSplitSpace, splitSpaceChars_eq_splitOn, h, List.map_map]
  simp [Function.comp_def]

/-! ## Envelope stripping -/

theorem stripEnvelope_wrap (s : String) :
    stripEnvelope (envPrefix ++ s ++ envSuffix) = s := by
  have hp : hasPrefix (envPrefix ++ s ++ envSuffix) envPrefix = true := by
    simp [hasPrefix, String.data_append, List.append_assoc]
  have hd : String.mk ((envPrefix ++ s ++ envSuffix).data.drop envPrefix.data.length)
      = s ++ envSuffix := by
    apply String.ext
    simp [String.data_append, List.append_assoc]
  have hs : hasSuffix (s ++ envSuffix) envSuffix = true := by
    simp [hasSuffix, String.data_append]
  have ht : String.mk ((s ++ envSuffix).data.take
      ((s ++ envSuffix).data.length - envSuffix.data.length)) = s := by
    apply String.ext
    simp [String.data_append]
  simp only [stripEnvelope, hp, if_true, hd, hs, ht]

/-! ## The search -/

theorem f_eq (render : Node → String) (q : query) (n : Node) :
    HTML.f render q n =
      if q.matches n then nodeToString render n else HTML.fLoop render q n.children := by
  cases n with
  | mk t d a cs => simp [HTML.f, Node.children]

theorem fLoop_cons (render : Node → String) (q : query) (c : Node) (rest : List Node) :
    HTML.fLoop render q (c :: rest) =
      if HTML.f render q c ≠ "" then HTML.f render q c else HTML.fLoop render q rest := by
  simp [HTML.fLoop]

theorem preorder_eq (n : Node) : preorder n = n :: preorderList n.children := by
  cases n with
  | mk t d a cs => simp [preorder, Node.children]

mutual
theorem f_no_match (render : Node → String) (q : query) :
    ∀ n : Node, (∀ m ∈ preorder n, q.matches m = false) → HTML.f render q n = ""
  | Node.mk t d a cs => by
    intro h
    have h0 : q.matches (Node.mk t d a cs) = false := h _ (by simp [preorder])
    have h1 : ∀ m ∈ preorderList cs, q.matches m = false :=
      fun m hm => h m (by simp [preorder, hm])
    simp only [HTML.f, h0]
    exact fLoop_no_match render q cs h1
theorem fLoop_no_match (render : Node → String) (q : query) :
    ∀ cs : List Node, (∀ m ∈ preorderList cs, q.matches m = false) → HTML.fLoop render q cs = ""
  | [] => by intro _; simp [HTML.fLoop]
  | c :: rest => by
    intro h
    have h0 := f_no_match render q c (fun m hm => h m (by simp [preorderList, hm]))
    have h1 := fLoop_no_match render q rest (fun m hm => h m (by simp [preorderList, hm]))
    simp [HTML.fLoop, h0, h1]
end

mutual
theorem f_first (render : Node → String) (q : query) :
    ∀ (n m : Node), (preorder n).find? q.matches = some m → nodeToString render m ≠ "" →
      HTML.f render q n = nodeToString render m
  | Node.mk t d a cs, m => by
    intro hf hne
    by_cases h0 : q.matches (Node.mk t d a cs) = true
    · have : m = Node.mk t d a cs := by
        simpa [preorder, List.find?_cons, h0] using hf.symm
      simp [HTML.f, h0, this]
    · have h0f : q.matches (Node.mk t d a cs) = false := by simpa using h0
      have hf2 : (preorderList cs).find? q.matches = some m := by
        simpa [preorder, List.find?_cons, h0f] using hf
      simp only [HTML.f, h0f]
      exact fLoop_first render q cs m hf2 hne
theorem fLoop_first (render : Node → String) (q : query) :
    ∀ (cs : List Node) (m : Node), (preorderList cs).find? q.matches = some m →
      nodeToString render m ≠ "" → HTML.fLoop render q cs = nodeToString render m
  | [], m => by intro hf; simp [preorderList] at hf
  | c :: rest, m => by
    intro hf hne
    rw [preorderList, List.find?_append] at hf
    cases hc : (preorder c).find? q.matches with
    | some m2 =>
      have hm : m2 = m := by simpa [hc] using hf
      subst hm
      have h1 := f_first render q c m2 hc hne
      simp [HTML.fLoop, h1, hne]
    | none =>
      have hf2 : (preorderList rest).find? q.matches = some m := by simpa [hc] using hf
      have h1 := f_no_match render q c (fun x hx => by
        have := List.find?_eq_none.1 hc x hx
        simpa using this)
      have h2 := fLoop_first render q rest m hf2 hne
      simp [HTML.fLoop, h1, h2]
end

/-! ## The selector scan -/

/-- The result that a final flush of the state gives. -/
theorem next_result (st : ParseState) (k j : Nat) :
    (parseQuery.next st k).result = (parseQuery.next st j).result := by
  obtain ⟨r, m, b⟩ := st
  simp only [parseQuery.next]
  by_cases h : b.length = 0
  · simp only [h, if_true]
  · simp only [h, if_false]
    rcases m with _ | _ | _ | m <;> rfl

theorem next_eq (st : ParseState) (k : Nat) :
    parseQuery.next st k = { result := (parseQuery.next st 0).result, mode := k, b := "" } := by
  obtain ⟨r, m, b⟩ := st
  simp only [parseQuery.next]
  by_cases h : b.length = 0
  · simp only [h, if_true]
  · simp only [h, if_false]
    rcases m with _ | _ | _ | m <;> rfl

theorem foldl_step_body (w : List Char) (hw : '#' ∉ w ∧ '.' ∉ w) (st : ParseState) :
    w.foldl parseQuery.step st = { st with b := String.mk (st.b.data ++ w) } := by
  induction w generalizing st with
  | nil => simp
  | cons c cs ih =>
    have h1 : ¬ c = '#' := fun e => hw.1 (by simp [e])
    have h2 : ¬ c = '.' := fun e => hw.2 (by simp [e])
    have hcs : '#' ∉ cs ∧ '.' ∉ cs :=
      ⟨fun h => hw.1 (List.mem_cons_of_mem _ h), fun h => hw.2 (List.mem_cons_of_mem _ h)⟩
    rw [List.foldl_cons, ih hcs]
    simp [parseQuery.step, h1, h2, String.push]

/-- The delimiter that starts a segment of kind `k` (1 = id, otherwise class). -/
theorem foldl_step_seg (d : Char) (k : Nat) (hd : (d = '#' ∧ k = 1) ∨ (d = '.' ∧ k = 2))
    (w : List Char) (hw : '#' ∉ w ∧ '.' ∉ w) (st : ParseState) :
    (d :: w).foldl parseQuery.step st =
      { result := (parseQuery.next st 0).result, mode := k, b := String.mk w } := by
  rw [List.foldl_cons]
  have hs : parseQuery.step st d = parseQuery.next st k := by
    rcases hd with ⟨rfl, rfl⟩ | ⟨rfl, rfl⟩ <;> simp [parseQuery.step]
  rw [hs, next_eq, foldl_step_body w hw]
  simp

theorem scan_segs (L : List (Nat × String))
    (hL : ∀ s ∈ L, (s.1 = 1 ∨ s.1 = 2) ∧ noDelim s.2) (st : ParseState) :
    (parseQuery.next ((L.map (fun s => (segText s).data)).flatten.foldl parseQuery.step st)
        0).result = L.foldl flushSeg (parseQuery.next st 0).result := by
  induction L generalizing st with
  | nil => simp
  | cons s rest ih =>
    have hs := hL s (List.mem_cons_self _ _)
    have hrest : ∀ x ∈ rest, (x.1 = 1 ∨ x.1 = 2) ∧ noDelim x.2 :=
      fun x hx => hL x (List.mem_cons_of_mem _ hx)
    obtain ⟨k, w⟩ := s
    have hseg : (segText (k, w)).data.foldl parseQuery.step st =
        { result := (parseQuery.next st 0).result, mode := k, b := w } := by
      rcases hs.1 with h1 | h2
      · simp only at h1
        subst h1
        have := foldl_step_seg '#' 1 (Or.inl ⟨rfl, rfl⟩) w.data hs.2 st
        simpa [segText, String.data_append] using this
      · simp only at h2
        subst h2
        have := foldl_step_seg '.' 2 (Or.inr ⟨rfl, rfl⟩) w.data hs.2 st
        simpa [segText, String.data_append] using this
    rw [List.map_cons, List.flatten_cons, List.foldl_append, hseg, ih hrest, List.foldl_cons]
    rfl

theorem foldl_flushSeg (L : List (Nat × String))
    (hL : ∀ s ∈ L, (s.1 = 1 ∨ s.1 = 2) ∧ s.2 ≠ "") (r : query) :
    (L.foldl flushSeg r).name = r.name ∧
    (L.foldl flushSeg r).id = (L.filterMap idBody).foldl (fun _ w => w) r.id ∧
    (L.foldl flushSeg r).classes = r.classes ++ L.filterMap classBody := by
  induction L generalizing r with
  | nil => simp
  | cons s rest ih =>
    have hs := hL s (List.mem_cons_self _ _)
    have hrest : ∀ x ∈ rest, (x.1 = 1 ∨ x.1 = 2) ∧ x.2 ≠ "" :=
      fun x hx => hL x (List.mem_cons_of_mem _ hx)
    obtain ⟨k, w⟩ := s
    have hw : ¬ w.length = 0 := by
      intro h
      apply hs.2
      cases w with
      | mk d =>
        have hd : d = [] := List.length_eq_zero.1 h
        subst hd
        rfl
    obtain ⟨h1, h2, h3⟩ := ih hrest (flushSeg r (k, w))
    rw [List.foldl_cons, h1, h2, h3]
    rcases hs.1 with hk | hk
    · simp only at hk
      subst hk
      have hf : flushSeg r (1, w) = { r with id := w } := by
        simp only [flushSeg, parseQuery.next, hw, if_false]
      simp [hf, idBody, classBody]
    · simp only at hk
      subst hk
      have hf : flushSeg r (2, w) = { r with classes := r.classes ++ [w] } := by
        simp only [flushSeg, parseQuery.next, hw, if_false]
      simp [hf, idBody, classBody]

theorem perm_map_exists {α β : Type} (f : α → β) {l : List β} {l2 : List β}
    (h : l.Perm l2) : ∀ l0 : List α, l2 = l0.map f → ∃ l1 : List α, l1.Perm l0 ∧ l = l1.map f := by
  induction h with
  | nil =>
    intro l0 h0
    exact ⟨[], by
      cases l0 with
      | nil => exact List.Perm.refl _
      | cons a t => simp at h0, rfl⟩
  | cons x _ ih =>
    intro l0 h0
    cases l0 with
    | nil => simp at h0
    | cons a t =>
      simp only [List.map_cons, List.cons.injEq] at h0
      obtain ⟨l1, hp, he⟩ := ih t h0.2
      exact ⟨a :: l1, hp.cons a, by simp [he, h0.1]⟩
  | swap x y l =>
    intro l0 h0
    cases l0 with
    | nil => simp at h0
    | cons a t =>
      cases t with
      | nil => simp at h0
      | cons b u =>
        simp only [List.map_cons, List.cons.injEq] at h0
        exact ⟨b :: a :: u, List.Perm.swap _ _ _, by simp [h0.1, h0.2.1, h0.2.2]⟩
  | trans _ _ ih1 ih2 =>
    intro l0 h0
    obtain ⟨l1, hp1, he1⟩ := ih2 l0 h0
    obtain ⟨l3, hp3, he3⟩ := ih1 l1 he1
    exact ⟨l3, hp3.trans hp1, he3⟩

theorem next_name_init (t : String) :
    (parseQuery.next { result := { name := "", id := "", classes := [] }, mode := 0, b := t }
      0).result = { name := t, id := "", classes := [] } := by
  simp only [parseQuery.next]
  by_cases h : t.length = 0
  · have ht : t = "" := by
      cases t with
      | mk d =>
        have hd : d = [] := List.length_eq_zero.1 h
        subst hd
        rfl
    simp [h, ht]
  · simp only [h, if_false]

theorem parseQuery_segs (t : String) (ht : noDelim t) (L : List (Nat × String))
    (hL : ∀ s ∈ L, (s.1 = 1 ∨ s.1 = 2) ∧ noDelim s.2) :
    parseQuery (t ++ String.join (L.map segText)) =
      L.foldl flushSeg { name := t, id := "", classes := [] } := by
  unfold parseQuery
  rw [String.data_append, String.data_join, List.foldl_append,
    foldl_step_body t.data ht, List.map_map]
  have := scan_segs L hL { parseQuery.init with b := String.mk (parseQuery.init.b.data ++ t.data) }
  simp only [Function.comp_def]
  rw [this]
  congr 1
  exact next_name_init t

/-- The scan on the runes of a selector made of a tag name followed by id and
class segments in any order. -/
theorem parseQuery_tokens (t : String) (io : Option String) (cs segs : List String)
    (ht : noDelim t)
    (hi : ∀ i ∈ io, i ≠ "" ∧ noDelim i)
    (hcs : ∀ c ∈ cs, c ≠ "" ∧ noDelim c)
    (hp : segs.Perm (io.toList.map (fun i => "#" ++ i) ++ cs.map (fun c => "." ++ c))) :
    (parseQuery (t ++ String.join segs)).name = t ∧
    (parseQuery (t ++ String.join segs)).id = io.getD "" ∧
    (parseQuery (t ++ String.join segs)).classes.Perm cs ∧
    (parseQuery (t ++ String.join segs)).classes.length = cs.length := by
  let L0 : List (Nat × String) := io.toList.map (fun i => (1, i)) ++ cs.map (fun c => (2, c))
  have hL0 : io.toList.map (fun i => "#" ++ i) ++ cs.map (fun c => "." ++ c) = L0.map segText := by
    simp [L0, segText, Function.comp_def]
  obtain ⟨L, hperm, hsegs⟩ := perm_map_exists segText hp L0 hL0
  have hmem : ∀ s ∈ L, (s.1 = 1 ∨ s.1 = 2) ∧ s.2 ≠ "" ∧ noDelim s.2 := by
    intro s hs
    have hs0 : s ∈ L0 := hperm.subset hs
    rcases List.mem_append.1 hs0 with h | h
    · obtain ⟨i, hi1, rfl⟩ := List.mem_map.1 h
      have := hi i (by simpa using hi1)
      exact ⟨Or.inl rfl, this.1, this.2⟩
    · obtain ⟨c, hc1, rfl⟩ := List.mem_map.1 h
      have := hcs c hc1
      exact ⟨Or.inr rfl, this.1, this.2⟩
  have hparse := parseQuery_segs t ht L (fun s hs => ⟨(hmem s hs).1, (hmem s hs).2.2⟩)
  obtain ⟨h1, h2, h3⟩ := foldl_flushSeg L (fun s hs => ⟨(hmem s hs).1, (hmem s hs).2.1⟩)
    { name := t, id := "", classes := [] }
  have hcls : (L.filterMap classBody).Perm cs := by
    have := hperm.filterMap classBody
    have h0 : L0.filterMap classBody = cs := by
      simp [L0, List.filterMap_append, List.filterMap_map, Function.comp_def, classBody]
    rwa [h0] at this
  have hid : L.filterMap idBody = io.toList := by
    have := hperm.filterMap idBody
    have h0 : L0.filterMap idBody = io.toList := by
      simp [L0, List.filterMap_append, List.filterMap_map, Function.comp_def, idBody]
    rw [h0] at this
    cases io with
    | none => simpa using this
    | some i => simpa using this
  rw [hsegs, hparse, h1, h2, h3, hid]
  refine ⟨rfl, ?_, by simpa using hcls, by simpa using hcls.length_eq⟩
  cases io <;> simp

/-! ## The search of `HTML` -/

/-- When the first node `m` in pre-order that satisfies `query.matches` has a
non-empty `nodeToString`, or when the root itself matches, the search `f`
returns `nodeToString m`. -/
theorem f_first_or_root (render : Node → String) (q : query) (doc m : Node)
    (hm : (preorder doc).find? q.matches = some m)
    (hne : nodeToString render m ≠ "" ∨ q.matches doc = true) :
    HTML.f render q doc = nodeToString render m := by
  rcases hne with hne | hroot
  · exact f_first render q doc m hm hne
  · have : m = doc := by
      rw [preorder_eq, List.find?_cons, hroot] at hm
      exact (Option.some.inj hm).symm
    rw [this, f_eq, if_pos hroot]

/-- C3. When no node of the document tree satisfies the compiled query, `HTML`
returns the empty string and a nil error. -/
theorem HTML_no_match {ρ : Type} (parse : ρ → ParseResult) (render : Node → String) (r : ρ)
    (qs : String) (doc : Node) (hp : parse r = Except.ok doc)
    (hno : ∀ n ∈ preorder doc, (parseQuery qs).matches n = false) :
    HTML parse render r qs = ("", none) := by
  simp only [HTML, hp]
  rw [f_no_match render (parseQuery qs) doc hno]

theorem HTML_no_match_witness :
    HTML (fun _ : String => Except.ok docNested) renderRef
      "<p>Foo <h1>Hello World</h1> Bar</p>" "h2.foo" = ("", none) :=
  HTML_no_match (fun _ : String => Except.ok docNested) renderRef _ "h2.foo" docNested rfl
    (by decide)

/-- C4. For every input that the parser accepts, `HTML` with the empty selector
returns `nodeToString` of the document root and a nil error, whatever the
children of the root are. -/
theorem HTML_empty_selector {ρ : Type} (parse : ρ → ParseResult) (render : Node → String)
    (r : ρ) (doc : Node) (hp : parse r = Except.ok doc) :
    HTML parse render r "" = (nodeToString render doc, none) := by
  have hq : parseQuery "" = { name := "", id := "", classes := [] } := by decide
  have hmatch : (parseQuery "").matches doc = true := by
    rw [hq]
    simp [query.matches, query.matchesName, query.matchesID, query.matchesClasses]
  simp only [HTML, hp]
  rw [f_eq, if_pos hmatch]

theorem HTML_empty_selector_witness :
    HTML (fun _ : String => Except.ok (document [])) renderRef "" "" = ("", none) := by
  have h := HTML_empty_selector (fun _ : String => Except.ok (document [])) renderRef ""
    (document []) rfl
  rw [h]
  decide

/-! ## The three checks -/

/-- C5. `q.matches n` holds iff the name check, the id check and the classes
check all pass; the name check passes iff `q.name` is empty or `n` is an Element
node whose `Data` equals `q.name` exactly. A query name `H1` does not pass on an
element with tag `h1`, and a node that is not an Element passes the name check
only when `q.name` is empty. -/
theorem matches_and_name_check (q : query) (n : Node) :
    (q.matches n = true ↔
      q.matchesName n = true ∧ q.matchesID n = true ∧ q.matchesClasses n = true) ∧
    (q.matchesName n = true ↔
      q.name = "" ∨ (n.Typ = NodeType.ElementNode ∧ n.Data = q.name)) ∧
    query.matchesName { name := "H1", id := "", classes := [] } (elem "h1" []) = false ∧
    (n.Typ ≠ NodeType.ElementNode → (q.matchesName n = true ↔ q.name = "")) := by
  refine ⟨matches_iff q n, matchesName_iff q n, by decide, ?_⟩
  intro hne
  rw [matchesName_iff]
  exact ⟨fun h => h.resolve_right (fun hx => hne hx.1), Or.inl⟩

/-- C6. The id check passes iff `q.id` is empty or the node has an attribute
whose key is exactly `id` or exactly `ID` and whose value equals `q.id`. When
`q.id` is not empty and every attribute of the node is keyed `Id` or `iD`, the
check fails, whatever the values are. -/
theorem matchesID_spec (q : query) (n : Node) :
    (q.matchesID n = true ↔
      q.id = "" ∨ ∃ a ∈ n.Attr, (a.Key = "id" ∨ a.Key = "ID") ∧ a.Val = q.id) ∧
    (q.id ≠ "" → (∀ a ∈ n.Attr, a.Key = "Id" ∨ a.Key = "iD") → q.matchesID n = false) ∧
    query.matchesID { name := "", id := "b", classes := [] } (elemAttr "a" "Id" "b" []) = false ∧
    query.matchesID { name := "", id := "b", classes := [] } (elemAttr "a" "iD" "b" []) = false ∧
    query.matchesID { name := "", id := "b", classes := [] } (elemAttr "a" "ID" "b" []) = true := by
  refine ⟨matchesID_iff q n, ?_, by decide, by decide, by decide⟩
  intro hid hkeys
  cases hb : q.matchesID n with
  | false => rfl
  | true =>
    rcases (matchesID_iff q n).1 hb with h | ⟨a, ha, hk, _⟩
    · exact absurd h hid
    · exfalso
      rcases hkeys a ha with h1 | h1 <;> rcases hk with h2 | h2 <;>
        · rw [h1] at h2
          exact absurd h2 (by decide)

/-- C7. The classes check passes iff `q.classes` is empty or the node has an
attribute keyed exactly `class` or `CLASS` whose value, split at every space,
contains every token of `q.classes`. The split cuts at every single space and
nowhere else: joining the tokens with one space gives the value back, no token
holds a space, and every non-empty list of space-free tokens is the split of its
join. Additional classes and their order do not matter. -/
theorem matchesClasses_spec (q : query) (n : Node) :
    (q.matchesClasses n = true ↔
      q.classes = [] ∨ ∃ a ∈ n.Attr, (a.Key = "class" ∨ a.Key = "CLASS") ∧
        ∀ c ∈ q.classes, c ∈ stringsSplitSpace a.Val) ∧
    (∀ v : String,
      String.mk ([' '].intercalate ((stringsSplitSpace v).map String.data)) = v ∧
      ∀ t ∈ stringsSplitSpace v, ' ' ∉ t.data) ∧
    (∀ ts : List String, ts ≠ [] → (∀ t ∈ ts, ' ' ∉ t.data) →
      stringsSplitSpace (String.mk ([' '].intercalate (ts.map String.data))) = ts) ∧
    query.matchesClasses { name := "", id := "", classes := ["bar", "foo"] }
      (elemAttr "a" "CLASS" "foo baz  bar" []) = true := by
  refine ⟨matchesClasses_iff q n, ?_, ?_, by decide⟩
  · intro v
    exact ⟨stringsSplitSpace_intercalate v, fun t ht => stringsSplitSpace_no_space v t ht⟩
  · intro ts hts hsp
    exact stringsSplitSpace_of_tokens ts hts hsp

/-- C8. Stripping the envelope from `"<html><head></head><body>" ++ s ++
"</body></html>"` yields exactly `s`, for every string `s`; hence `nodeToString`
returns `s` for every node whose rendering is `s` wrapped in the envelope. -/
theorem nodeToString_roundtrip (s : String) :
    stripEnvelope ("<html><head></head><body>" ++ s ++ "</body></html>") = s ∧
    ∀ (render : Node → String) (node : Node),
      render node = "<html><head></head><body>" ++ s ++ "</body></html>" →
      nodeToString render node = s := by
  have h := stripEnvelope_wrap s
  simp only [envPrefix, envSuffix] at h
  refine ⟨h, ?_⟩
  intro render node hr
  rw [nodeToString, hr, h]

theorem nodeToString_roundtrip_witness :
    nodeToString renderRef (document []) = "" ∧
    nodeToString renderRef (document [elem "h1" [text "Hello World"]])
      = "<h1>Hello World</h1>" ∧
    nodeToString renderRef (document [elem "article" [elem "h2" [text "Foo"],
        elem "p" [text "Bar ", elemAttr "a" "href" "#" [text "Baz"]]]])
      = "<article><h2>Foo</h2><p>Bar <a href=\"#\">Baz</a></p></article>" :=
  ⟨(nodeToString_roundtrip "").2 renderRef _ (by decide),
   (nodeToString_roundtrip "<h1>Hello World</h1>").2 renderRef _ (by decide),
   (nodeToString_roundtrip
     "<article><h2>Foo</h2><p>Bar <a href=\"#\">Baz</a></p></article>").2 renderRef _
     (by decide)⟩

/-- C9. `HTML` returns a non-nil error iff the parser returns an error. In that
case the returned string is empty and the error text is `parse html error: `
followed by the text of the parser error. Whenever the parser succeeds the
returned error is nil, for every selector. -/
theorem HTML_error_iff {ρ : Type} (parse : ρ → ParseResult) (render : Node → String) (r : ρ)
    (qs : String) :
    ((HTML parse render r qs).2 ≠ none ↔ ∃ e, parse r = Except.error e) ∧
    (∀ e, parse r = Except.error e →
      HTML parse render r qs = ("", some ("parse html error: " ++ e))) ∧
    (∀ doc, parse r = Except.ok doc → (HTML parse render r qs).2 = none) := by
  cases hp : parse r with
  | error e => simp [HTML, hp]
  | ok doc => simp [HTML, hp]

theorem HTML_error_iff_witness :
    HTML (fun _ : String => (Except.error "unexpected EOF" : ParseResult)) renderRef "<p>" "p"
      = ("", some "parse html error: unexpected EOF") ∧
    (HTML (fun _ : String => Except.ok docNested) renderRef "" "h1").2 = none :=
  ⟨(HTML_error_iff (fun _ : String => (Except.error "unexpected EOF" : ParseResult))
      renderRef "<p>" "p").2.1 "unexpected EOF" rfl,
   (HTML_error_iff (fun _ : String => Except.ok docNested) renderRef "" "h1").2.2
      docNested rfl⟩

/-- A node that carries no attribute keyed `id`, `ID`, `class` or `CLASS` does
not match a query with a non-empty id or a non-empty list of classes. -/
theorem matches_without_id_class_attr (q : query) (n : Node)
    (hq : q.id ≠ "" ∨ q.classes ≠ [])
    (hattr : ∀ a ∈ n.Attr, a.Key ≠ "id" ∧ a.Key ≠ "ID" ∧ a.Key ≠ "class" ∧ a.Key ≠ "CLASS") :
    q.matches n = false := by
  cases hb : q.matches n with
  | false => rfl
  | true =>
    exfalso
    obtain ⟨_, hid, hcl⟩ := (matches_iff q n).1 hb
    rcases hq with hq | hq
    · rcases (matchesID_iff q n).1 hid with h | ⟨a, ha, hk, _⟩
      · exact hq h
      · have := hattr a ha
        rcases hk with hk | hk
        · exact this.1 hk
        · exact this.2.1 hk
    · rcases (matchesClasses_iff q n).1 hcl with h | ⟨a, ha, hk, _⟩
      · exact hq h
      · have := hattr a ha
        rcases hk with hk | hk
        · exact this.2.2.1 hk
        · exact this.2.2.2 hk

/-! ## Prefix and suffix tests -/

theorem hasPrefix_iff (r p : String) : hasPrefix r p = true ↔ startsWith r p := by
  unfold hasPrefix startsWith
  rw [List.isPrefixOf_iff_prefix]
  constructor
  · rintro ⟨t, ht⟩
    exact ⟨String.mk t, String.ext (by simp [String.data_append, ht])⟩
  · rintro ⟨t, ht⟩
    exact ⟨t.data, by rw [ht, String.data_append]⟩

theorem hasSuffix_iff (r p : String) : hasSuffix r p = true ↔ endsWith r p := by
  unfold hasSuffix endsWith
  rw [List.isSuffixOf_iff_suffix]
  constructor
  · rintro ⟨t, ht⟩
    exact ⟨String.mk t, String.ext (by simp [String.data_append, ht])⟩
  · rintro ⟨t, ht⟩
    exact ⟨t.data, by rw [ht, String.data_append]⟩

theorem drop_prefix (p t : String) :
    String.mk ((p ++ t).data.drop p.data.length) = t := by
  apply String.ext
  simp [String.data_append]

theorem take_suffix (u p : String) :
    String.mk ((u ++ p).data.take ((u ++ p).data.length - p.data.length)) = u := by
  apply String.ext
  simp [String.data_append]

/-- The second step of `nodeToString` on a text that ends with the suffix. -/
theorem strip_suffix_step (u : String) :
    (if hasSuffix (u ++ envSuffix) envSuffix then
      String.mk ((u ++ envSuffix).data.take ((u ++ envSuffix).data.length - envSuffix.data.length))
     else u ++ envSuffix) = u := by
  rw [if_pos ((hasSuffix_iff _ _).2 ⟨u, rfl⟩), take_suffix]

theorem stripEnvelope_cases (r : String) :
    (∀ t u : String, r = envPrefix ++ t → t = u ++ envSuffix → stripEnvelope r = u) ∧
    (∀ t : String, r = envPrefix ++ t → ¬ endsWith t envSuffix → stripEnvelope r = t) ∧
    (¬ startsWith r envPrefix → ∀ u : String, r = u ++ envSuffix → stripEnvelope r = u) ∧
    (¬ startsWith r envPrefix → ¬ endsWith r envSuffix → stripEnvelope r = r) := by
  refine ⟨?_, ?_, ?_, ?_⟩
  · intro t u hr ht
    have hp : hasPrefix r envPrefix = true := (hasPrefix_iff _ _).2 ⟨t, hr⟩
    simp only [stripEnvelope, hp, if_true]
    rw [hr, drop_prefix, ht]
    exact strip_suffix_step u
  · intro t hr hs
    have hp : hasPrefix r envPrefix = true := (hasPrefix_iff _ _).2 ⟨t, hr⟩
    have hs2 : ¬ hasSuffix t envSuffix = true := fun h => hs ((hasSuffix_iff _ _).1 h)
    simp only [stripEnvelope, hp, if_true]
    rw [hr, drop_prefix, if_neg hs2]
  · intro hp u hr
    have hp2 : ¬ hasPrefix r envPrefix = true := fun h => hp ((hasPrefix_iff _ _).1 h)
    simp only [stripEnvelope, if_neg hp2]
    rw [hr]
    exact strip_suffix_step u
  · intro hp hs
    have hp2 : ¬ hasPrefix r envPrefix = true := fun h => hp ((hasPrefix_iff _ _).1 h)
    have hs2 : ¬ hasSuffix r envSuffix = true := fun h => hs ((hasSuffix_iff _ _).1 h)
    simp only [stripEnvelope, if_neg hp2, if_neg hs2]

/-! ## Further properties of the predicate and of the stripping -/

/-- C11. The query with all three fields empty matches every node, of any type
and with any attribute list. -/
theorem empty_query_matches_every_node (t : NodeType) (d : String) (a : List Attribute)
    (cs : List Node) :
    query.matches { name := "", id := "", classes := [] } (Node.mk t d a cs) = true := by
  simp [query.matches, query.matchesName, query.matchesID, query.matchesClasses]

/-- C12. When the rendered text neither begins with
`<html><head></head><body>` nor ends with `</body></html>`, `nodeToString`
returns it unchanged. -/
theorem nodeToString_unchanged (render : Node → String) (node : Node)
    (hp : ¬ startsWith (render node) "<html><head></head><body>")
    (hs : ¬ endsWith (render node) "</body></html>") :
    nodeToString render node = render node :=
  (stripEnvelope_cases (render node)).2.2.2 hp hs

theorem nodeToString_unchanged_witness :
    nodeToString renderRef (elem "h1" [text "Hello World"]) = renderRef (elem "h1" [text "Hello World"]) ∧
    renderRef (elem "h1" [text "Hello World"]) = "<h1>Hello World</h1>" :=
  ⟨nodeToString_unchanged renderRef (elem "h1" [text "Hello World"])
      (fun h => absurd ((hasPrefix_iff _ _).2 h) (by decide))
      (fun h => absurd ((hasSuffix_iff _ _).2 h) (by decide)),
   by decide⟩

theorem matches_congr_classes (q1 q2 : query) (n : Node)
    (hname : q1.name = q2.name) (hid : q1.id = q2.id)
    (hcls : ∀ c, c ∈ q1.classes ↔ c ∈ q2.classes) :
    q1.matches n = q2.matches n := by
  have hn : q1.matchesName n = q2.matchesName n := by
    simp [query.matchesName, hname]
  have hi : q1.matchesID n = q2.matchesID n := by
    rw [Bool.eq_iff_iff, matchesID_iff, matchesID_iff, hid]
  have hnil : q1.classes = [] ↔ q2.classes = [] := by
    simp only [List.eq_nil_iff_forall_not_mem, hcls]
  have hc : q1.matchesClasses n = q2.matchesClasses n := by
    rw [Bool.eq_iff_iff, matchesClasses_iff, matchesClasses_iff, hnil]
    simp only [hcls]
  simp [query.matches, hn, hi, hc]

/-- C13. The required classes act as a set: two queries with the same name and
id whose classes lists have the same elements (in any order, with any
repetitions) give the same result of `matches` on every node. -/
theorem matches_classes_as_set (q1 q2 : query) (n : Node)
    (hname : q1.name = q2.name) (hid : q1.id = q2.id)
    (hcls : ∀ c, c ∈ q1.classes ↔ c ∈ q2.classes) :
    q1.matches n = q2.matches n :=
  matches_congr_classes q1 q2 n hname hid hcls

theorem matches_classes_as_set_witness :
    query.matches { name := "a", id := "", classes := ["foo", "bar"] }
        (elemAttr "a" "class" "bar baz foo" []) =
      query.matches { name := "a", id := "", classes := ["bar", "foo", "bar"] }
        (elemAttr "a" "class" "bar baz foo" []) ∧
    query.matches { name := "a", id := "", classes := ["bar", "foo", "bar"] }
        (elemAttr "a" "class" "bar baz foo" []) = true :=
  ⟨matches_classes_as_set { name := "a", id := "", classes := ["foo", "bar"] }
      { name := "a", id := "", classes := ["bar", "foo", "bar"] }
      (elemAttr "a" "class" "bar baz foo" []) rfl rfl
      (by intro c; simp only [List.mem_cons, List.mem_nil_iff, or_false]; tauto),
   by decide⟩

/-- C20. The two parts of the envelope are stripped one after the other by
`nodeToString`: a leading `<html><head></head><body>` is removed if the rendered
text starts with it, then a trailing `</body></html>` is removed if what remains
ends with it. A rendering that does not start with the prefix but ends with the
suffix loses the suffix, as the `html` element with an attribute shows. -/
theorem stripEnvelope_two_steps (r : String) :
    (∀ t u : String, r = envPrefix ++ t → t = u ++ envSuffix → stripEnvelope r = u) ∧
    (∀ t : String, r = envPrefix ++ t → ¬ endsWith t envSuffix → stripEnvelope r = t) ∧
    (¬ startsWith r envPrefix → ∀ u : String, r = u ++ envSuffix → stripEnvelope r = u) ∧
    (¬ startsWith r envPrefix → ¬ endsWith r envSuffix → stripEnvelope r = r) ∧
    (renderRef htmlWithAttr = "<html lang=\"en\"><head></head><body>x</body></html>" ∧
     nodeToString renderRef htmlWithAttr = "<html lang=\"en\"><head></head><body>x") := by
  obtain ⟨h1, h2, h3, h4⟩ := stripEnvelope_cases r
  exact ⟨h1, h2, h3, h4, by decide, by decide⟩

/-! ## The selector as a list of segments -/

theorem segText_one (w : String) : (segText (1, w)).data = '#' :: w.data := by
  simp [segText, String.data_append]

theorem segText_two (w : String) : (segText (2, w)).data = '.' :: w.data := by
  simp [segText, String.data_append]

theorem cutChars_spec (l : List Char) :
    l = (cutChars l).1 ++
        ((cutChars l).2.map (fun p => (segText (p.1, String.mk p.2)).data)).flatten ∧
    ('#' ∉ (cutChars l).1 ∧ '.' ∉ (cutChars l).1) ∧
    ∀ p ∈ (cutChars l).2, (p.1 = 1 ∨ p.1 = 2) ∧ '#' ∉ p.2 ∧ '.' ∉ p.2 := by
  induction l with
  | nil => simp [cutChars]
  | cons c cs ih =>
    obtain ⟨h1, h2, h3⟩ := ih
    by_cases hc1 : c = '#'
    · subst hc1
      refine ⟨?_, by simp [cutChars], ?_⟩
      · simp only [cutChars, if_true, List.map_cons, List.flatten_cons, List.nil_append]
        rw [segText_one]
        exact congrArg (List.cons '#') h1
      · intro p hp
        simp only [cutChars, if_true, List.mem_cons] at hp
        rcases hp with rfl | hp
        · exact ⟨Or.inl rfl, h2⟩
        · exact h3 p hp
    · by_cases hc2 : c = '.'
      · subst hc2
        refine ⟨?_, by simp [cutChars], ?_⟩
        · simp only [cutChars, if_neg hc1, if_true, List.map_cons, List.flatten_cons,
            List.nil_append]
          rw [segText_two]
          exact congrArg (List.cons '.') h1
        · intro p hp
          simp only [cutChars, if_neg hc1, if_true, List.mem_cons] at hp
          rcases hp with rfl | hp
          · exact ⟨Or.inr rfl, h2⟩
          · exact h3 p hp
      · refine ⟨?_, ?_, ?_⟩
        · simp only [cutChars, if_neg hc1, if_neg hc2, List.cons_append]
          exact congrArg (List.cons c) h1
        · simp only [cutChars, if_neg hc1, if_neg hc2, List.mem_cons, not_or]
          exact ⟨⟨fun e => hc1 e.symm, h2.1⟩, ⟨fun e => hc2 e.symm, h2.2⟩⟩
        · intro p hp
          simp only [cutChars, if_neg hc1, if_neg hc2] at hp
          exact h3 p hp

theorem selector_eq_segments (s : String) :
    s = initialSegment s ++ String.join ((laterSegments s).map segText) := by
  apply String.ext
  have h := (cutChars_spec s.data).1
  rw [String.data_append, String.data_join]
  simp only [initialSegment, laterSegments, List.map_map, Function.comp_def]
  exact h

theorem initialSegment_noDelim (s : String) : noDelim (initialSegment s) :=
  (cutChars_spec s.data).2.1

theorem laterSegments_spec (s : String) :
    ∀ p ∈ laterSegments s, (p.1 = 1 ∨ p.1 = 2) ∧ noDelim p.2 := by
  intro p hp
  obtain ⟨x, hx, rfl⟩ := List.mem_map.1 hp
  exact (cutChars_spec s.data).2.2 x hx

theorem string_eq_empty_of_length (w : String) (h : w.length = 0) : w = "" := by
  cases w with
  | mk d =>
    have hd : d = [] := List.length_eq_zero.1 h
    subst hd
    rfl

theorem flushSeg_empty (r : query) (k : Nat) : flushSeg r (k, "") = r := by
  simp [flushSeg, parseQuery.next]

theorem foldl_flushSeg_filter (L : List (Nat × String)) (r : query) :
    L.foldl flushSeg r = (L.filter (fun p => p.2 ≠ "")).foldl flushSeg r := by
  induction L generalizing r with
  | nil => rfl
  | cons p rest ih =>
    obtain ⟨k, w⟩ := p
    by_cases hw : w = ""
    · subst hw
      simp [flushSeg_empty, ih]
    · simp [hw, ih]

theorem foldl_last (l : List String) (a : String) :
    l.foldl (fun _ w => w) a = l.getLast?.getD a := by
  induction l using List.reverseRecOn with
  | nil => rfl
  | append_singleton init x _ => simp

theorem filterMap_idBody (L : List (Nat × String)) :
    (L.filter (fun p => p.2 ≠ "")).filterMap idBody =
      (L.filter (fun p => p.1 = 1 ∧ p.2 ≠ "")).map Prod.snd := by
  induction L with
  | nil => rfl
  | cons p rest ih =>
    obtain ⟨k, w⟩ := p
    by_cases hw : w = "" <;> by_cases hk : k = 1 <;>
      simpa [hw, hk, idBody, List.filter_cons] using ih

theorem filterMap_classBody (L : List (Nat × String)) :
    (L.filter (fun p => p.2 ≠ "")).filterMap classBody =
      (L.filter (fun p => p.1 = 2 ∧ p.2 ≠ "")).map Prod.snd := by
  induction L with
  | nil => rfl
  | cons p rest ih =>
    obtain ⟨k, w⟩ := p
    by_cases hw : w = "" <;> by_cases hk : k = 2 <;>
      simpa [hw, hk, classBody, List.filter_cons] using ih

/-- The compiled query in terms of the segments of the selector. -/
theorem parseQuery_cut (s : String) :
    parseQuery s =
      { name := initialSegment s, id := (idSegments s).getLast?.getD "",
        classes := classSegments s } := by
  have hparse : parseQuery s =
      (laterSegments s).foldl flushSeg { name := initialSegment s, id := "", classes := [] } := by
    have h := parseQuery_segs (initialSegment s) (initialSegment_noDelim s) (laterSegments s)
      (laterSegments_spec s)
    rw [← selector_eq_segments s] at h
    exact h
  rw [hparse, foldl_flushSeg_filter]
  obtain ⟨h1, h2, h3⟩ := foldl_flushSeg ((laterSegments s).filter (fun p => p.2 ≠ ""))
    (by
      intro p hp
      have hp2 := List.mem_filter.1 hp
      exact ⟨(laterSegments_spec s p hp2.1).1, by simpa using hp2.2⟩)
    { name := initialSegment s, id := "", classes := [] }
  rw [filterMap_idBody, foldl_last] at h2
  rw [filterMap_classBody] at h3
  cases hq : List.foldl flushSeg { name := initialSegment s, id := "", classes := [] }
      ((laterSegments s).filter (fun p => p.2 ≠ "")) with
  | mk nm i cl =>
    rw [hq] at h1 h2 h3
    simp only at h1 h2 h3
    simp only [idSegments, classSegments, h1, h2, h3, List.nil_append]

theorem foldl_step_delims (l : List Char) (hl : ∀ c ∈ l, c = '#' ∨ c = '.') (r : query)
    (k : Nat) :
    ∃ j, l.foldl parseQuery.step { result := r, mode := k, b := "" } =
      { result := r, mode := j, b := "" } := by
  induction l generalizing k with
  | nil => exact ⟨k, rfl⟩
  | cons c cs ih =>
    have hcs : ∀ x ∈ cs, x = '#' ∨ x = '.' := fun x hx => hl x (List.mem_cons_of_mem _ hx)
    rcases hl c (List.mem_cons_self _ _) with rfl | rfl
    · have hs : parseQuery.step { result := r, mode := k, b := "" } '#' =
          { result := r, mode := 1, b := "" } := by
        simp [parseQuery.step, parseQuery.next]
      rw [List.foldl_cons, hs]
      exact ih hcs 1
    · have hs : parseQuery.step { result := r, mode := k, b := "" } '.' =
          { result := r, mode := 2, b := "" } := by
        simp [parseQuery.step, parseQuery.next]
      rw [List.foldl_cons, hs]
      exact ih hcs 2

theorem matchesClassesLoopNoEmpty_iff (q : query) (attrs : List Attribute) :
    matchesClassesLoopNoEmpty q attrs = true ↔
      ∃ a ∈ attrs, (a.Key = "class" ∨ a.Key = "CLASS") ∧
        ∀ c ∈ q.classes, c ∈ (stringsSplitSpace a.Val).filter (fun t => t ≠ "") := by
  induction attrs with
  | nil => simp [matchesClassesLoopNoEmpty]
  | cons a rest ih =>
    by_cases hk : a.Key = "class" ∨ a.Key = "CLASS"
    · by_cases hm : query.matchesClassesInner
          ((stringsSplitSpace a.Val).filter (fun t => t ≠ "")) q.classes true = true
      · simp only [matchesClassesLoopNoEmpty, if_pos hk, if_pos hm, true_iff]
        exact ⟨a, List.mem_cons_self _ _, hk, ((matchesClassesInner_iff _ _ _).1 hm).2⟩
      · simp only [matchesClassesLoopNoEmpty, if_pos hk, if_neg hm, ih,
          List.exists_mem_cons_iff]
        refine ⟨fun hx => Or.inr hx, fun hx => hx.resolve_left ?_⟩
        intro hbad
        exact hm ((matchesClassesInner_iff _ _ _).2 ⟨rfl, hbad.2⟩)
    · simp only [matchesClassesLoopNoEmpty, if_neg hk, ih, List.exists_mem_cons_iff]
      exact ⟨fun hx => Or.inr hx, fun hx => hx.resolve_left (fun hbad => hk hbad.1)⟩

theorem matchesClassesNoEmpty_eq (q : query) (hq : ∀ c ∈ q.classes, c ≠ "") (n : Node) :
    q.matchesClasses n = matchesClassesNoEmpty q n := by
  rw [Bool.eq_iff_iff, matchesClasses_iff]
  unfold matchesClassesNoEmpty
  by_cases h : q.classes = []
  · simp [h]
  · have hl : ¬ q.classes.length = 0 := fun e => h (List.length_eq_zero.1 e)
    rw [if_neg hl, matchesClassesLoopNoEmpty_iff]
    simp only [h, false_or]
    constructor
    · rintro ⟨a, ha, hk, hc⟩
      exact ⟨a, ha, hk, fun c hcq => List.mem_filter.2 ⟨hc c hcq, by simpa using hq c hcq⟩⟩
    · rintro ⟨a, ha, hk, hc⟩
      exact ⟨a, ha, hk, fun c hcq => (List.mem_filter.1 (hc c hcq)).1⟩

theorem classSegments_ne_empty (s : String) : ∀ c ∈ classSegments s, c ≠ "" := by
  intro c hc
  obtain ⟨p, hp, rfl⟩ := List.mem_map.1 hc
  have := (List.mem_filter.1 hp).2
  simp only [decide_eq_true_eq] at this
  exact this.2

theorem classSegments_noDelim (s : String) : ∀ c ∈ classSegments s, noDelim c := by
  intro c hc
  obtain ⟨p, hp, rfl⟩ := List.mem_map.1 hc
  exact (laterSegments_spec s p (List.mem_filter.1 hp).1).2

theorem idSegments_noDelim (s : String) : ∀ c ∈ idSegments s, noDelim c := by
  intro c hc
  obtain ⟨p, hp, rfl⟩ := List.mem_map.1 hc
  exact (laterSegments_spec s p (List.mem_filter.1 hp).1).2

/-! ## Properties of the compiled query -/

/-- C14. `parseQuery` is total, and on every selector that consists only of
the delimiters `#` and `.` (the empty selector included) it returns the all-empty
query, which matches every node. -/
theorem parseQuery_delimiters_only (s : String) :
    (∃ q : query, parseQuery s = q) ∧
    ((∀ c ∈ s.data, c = '#' ∨ c = '.') →
      parseQuery s = { name := "", id := "", classes := [] } ∧
      ∀ n : Node, (parseQuery s).matches n = true) := by
  refine ⟨⟨parseQuery s, rfl⟩, ?_⟩
  intro h
  have hq : parseQuery s = { name := "", id := "", classes := [] } := by
    obtain ⟨j, hj⟩ := foldl_step_delims s.data h { name := "", id := "", classes := [] } 0
    unfold parseQuery parseQuery.init
    rw [hj]
    simp [parseQuery.next]
  refine ⟨hq, ?_⟩
  intro n
  rw [hq]
  simp [query.matches, query.matchesName, query.matchesID, query.matchesClasses]

theorem parseQuery_delimiters_only_witness :
    parseQuery "" = { name := "", id := "", classes := [] } ∧
    parseQuery "#..#." = { name := "", id := "", classes := [] } ∧
    (parseQuery "#..#.").matches docNested = true :=
  ⟨((parseQuery_delimiters_only "").2 (by decide)).1,
   ((parseQuery_delimiters_only "#..#.").2 (by decide)).1,
   ((parseQuery_delimiters_only "#..#.").2 (by decide)).2 docNested⟩

/-- C16. No field of the query returned by `parseQuery` contains a delimiter:
name, id and every element of classes are free of `#` and `.`. -/
theorem parseQuery_fields_noDelim (s : String) :
    noDelim (parseQuery s).name ∧ noDelim (parseQuery s).id ∧
    ∀ c ∈ (parseQuery s).classes, noDelim c := by
  rw [parseQuery_cut]
  refine ⟨initialSegment_noDelim s, ?_, classSegments_noDelim s⟩
  show noDelim ((idSegments s).getLast?.getD "")
  cases h : (idSegments s).getLast? with
  | none => simp [noDelim]
  | some x => exact idSegments_noDelim s x (List.mem_of_getLast?_eq_some h)

/-- C17. Every class recorded by `parseQuery` is a non-empty string, and for a
query compiled by `parseQuery` the classes check gives the same result when the
empty tokens are removed from the split attribute value, as on the value
` a  b ` with its three empty tokens. -/
theorem parseQuery_classes_nonempty (s : String) :
    (∀ c ∈ (parseQuery s).classes, c ≠ "") ∧
    (∀ n : Node, (parseQuery s).matchesClasses n = matchesClassesNoEmpty (parseQuery s) n) ∧
    (stringsSplitSpace " a  b " = ["", "a", "", "b", ""] ∧
     (parseQuery ".b.a").matchesClasses (elemAttr "p" "class" " a  b " []) = true ∧
     matchesClassesNoEmpty (parseQuery ".b.a") (elemAttr "p" "class" " a  b " []) = true) := by
  have h : ∀ c ∈ (parseQuery s).classes, c ≠ "" := by
    rw [parseQuery_cut]
    exact classSegments_ne_empty s
  exact ⟨h, fun n => matchesClassesNoEmpty_eq (parseQuery s) h n, by decide, by decide,
    by decide⟩

/-- C18, as stated, fails. The selector `a.foo.foo` is compiled to the classes
`foo, foo`: the token is recorded twice. -/
theorem parseQuery_classes_dup_counterexample :
    (parseQuery "a.foo.foo").classes = ["foo", "foo"] ∧
    ¬ (parseQuery "a.foo.foo").classes.Nodup := by
  decide

/-! ## The search and the top-level matches -/

theorem firstNonEmpty_nil (render : Node → String) : firstNonEmpty render [] = "" := rfl

theorem firstNonEmpty_single (render : Node → String) (n : Node) :
    firstNonEmpty render [n] = nodeToString render n := by
  by_cases h : nodeToString render n = ""
  · simp [firstNonEmpty, h]
  · simp [firstNonEmpty, h]

theorem firstNonEmpty_append (render : Node → String) (a b : List Node) :
    firstNonEmpty render (a ++ b) =
      if firstNonEmpty render a ≠ "" then firstNonEmpty render a else firstNonEmpty render b := by
  unfold firstNonEmpty
  rw [List.find?_append]
  cases h : a.find? (fun m => nodeToString render m ≠ "") with
  | none => simp
  | some m =>
    have hm : nodeToString render m ≠ "" := by
      simpa using List.find?_some h
    simp [hm]

mutual
theorem preorderAnc_anc (anc : List Node) :
    ∀ (n : Node), ∀ p ∈ preorderAnc anc n, ∀ a ∈ anc, a ∈ p.1
  | Node.mk t d at_ cs => by
    intro p hp a ha
    rw [preorderAnc, List.mem_cons] at hp
    rcases hp with rfl | hp
    · exact ha
    · exact preorderAncList_anc (Node.mk t d at_ cs :: anc) cs p hp a
        (List.mem_cons_of_mem _ ha)
theorem preorderAncList_anc (anc : List Node) :
    ∀ (cs : List Node), ∀ p ∈ preorderAncList anc cs, ∀ a ∈ anc, a ∈ p.1
  | [] => by intro p hp; simp [preorderAncList] at hp
  | c :: rest => by
    intro p hp a ha
    rw [preorderAncList, List.mem_append] at hp
    rcases hp with hp | hp
    · exact preorderAnc_anc anc c p hp a ha
    · exact preorderAncList_anc anc rest p hp a ha
end

theorem filter_top_below_match (q : query) (n : Node) (anc : List Node) (cs : List Node)
    (hn : q.matches n = true) :
    (preorderAncList (n :: anc) cs).filter (isTopMatch q) = [] := by
  rw [List.filter_eq_nil_iff]
  intro p hp
  have hmem := preorderAncList_anc (n :: anc) cs p hp n (List.mem_cons_self _ _)
  simp only [isTopMatch, Bool.and_eq_true, List.all_eq_true, not_and]
  intro _ hall
  have := hall n hmem
  simp [hn] at this

mutual
theorem f_topMatches (render : Node → String) (q : query) :
    ∀ (n : Node) (anc : List Node), (∀ a ∈ anc, q.matches a = false) →
      HTML.f render q n =
        firstNonEmpty render (((preorderAnc anc n).filter (isTopMatch q)).map Prod.snd)
  | Node.mk t d at_ cs, anc => by
    intro hanc
    have hall : anc.all (fun a => !q.matches a) = true := by
      rw [List.all_eq_true]
      intro a ha
      simp [hanc a ha]
    by_cases h0 : q.matches (Node.mk t d at_ cs) = true
    · have htop : isTopMatch q (anc, Node.mk t d at_ cs) = true := by
        simp [isTopMatch, h0, hall]
      rw [preorderAnc, List.filter_cons, if_pos htop, filter_top_below_match q _ anc cs h0]
      simp only [List.map_cons, List.map_nil]
      rw [firstNonEmpty_single]
      simp [HTML.f, h0]
    · have h0f : q.matches (Node.mk t d at_ cs) = false := by simpa using h0
      have htop : ¬ isTopMatch q (anc, Node.mk t d at_ cs) = true := by
        simp [isTopMatch, h0f]
      rw [preorderAnc, List.filter_cons, if_neg htop]
      simp only [HTML.f, h0f]
      exact fLoop_topMatches render q cs (Node.mk t d at_ cs :: anc) (by
        intro a ha
        rcases List.mem_cons.1 ha with rfl | ha
        · exact h0f
        · exact hanc a ha)
theorem fLoop_topMatches (render : Node → String) (q : query) :
    ∀ (cs : List Node) (anc : List Node), (∀ a ∈ anc, q.matches a = false) →
      HTML.fLoop render q cs =
        firstNonEmpty render (((preorderAncList anc cs).filter (isTopMatch q)).map Prod.snd)
  | [], anc => by
    intro _
    simp [HTML.fLoop, preorderAncList, firstNonEmpty_nil]
  | c :: rest, anc => by
    intro hanc
    rw [preorderAncList, List.filter_append, List.map_append, firstNonEmpty_append,
      ← f_topMatches render q c anc hanc, ← fLoop_topMatches render q rest anc hanc]
    simp [HTML.fLoop]
end

mutual
theorem preorderAnc_snd (anc : List Node) :
    ∀ (n : Node), (preorderAnc anc n).map Prod.snd = preorder n
  | Node.mk t d at_ cs => by
    rw [preorderAnc, preorder, List.map_cons, preorderAncList_snd (Node.mk t d at_ cs :: anc) cs]
theorem preorderAncList_snd (anc : List Node) :
    ∀ (cs : List Node), (preorderAncList anc cs).map Prod.snd = preorderList cs
  | [] => by simp [preorderAncList, preorderList]
  | c :: rest => by
    rw [preorderAncList, preorderList, List.map_append, preorderAnc_snd anc c,
      preorderAncList_snd anc rest]
end

theorem firstNonEmpty_mem (render : Node → String) (l : List Node)
    (h : firstNonEmpty render l ≠ "") :
    ∃ m ∈ l, firstNonEmpty render l = nodeToString render m := by
  unfold firstNonEmpty at h ⊢
  cases hf : l.find? (fun m => nodeToString render m ≠ "") with
  | none => rw [hf] at h; simp at h
  | some m => exact ⟨m, List.mem_of_find?_eq_some hf, by simp⟩

/-- C19. The search of `HTML` returns `nodeToString m` for the first node `m`,
in pre-order, among the nodes that satisfy the query and have no proper ancestor
satisfying it, whose `nodeToString` is not empty, and the empty string when
there is no such node. A match with an empty serialization does not stop the
search, a node below a matching node is no candidate, and every non-empty result
is the serialization of a node of the tree that satisfies the query. -/
theorem HTML_f_topMatches (render : Node → String) (q : query) (doc : Node) :
    HTML.f render q doc = firstNonEmpty render (topMatches q doc) ∧
    (∀ m ∈ topMatches q doc, m ∈ preorder doc ∧ q.matches m = true) ∧
    (preorderAnc [] doc).map Prod.snd = preorder doc ∧
    (HTML.f render q doc ≠ "" →
      ∃ m ∈ preorder doc, q.matches m = true ∧ HTML.f render q doc = nodeToString render m) ∧
    ((topMatches (parseQuery "html") docTwoHtml).map (nodeToString renderRef) = ["", "x"] ∧
     HTML.f renderRef (parseQuery "html") docTwoHtml = "x" ∧
     (topMatches (parseQuery "") docNested).length = 1 ∧
     HTML.f renderRef (parseQuery "body") (document []) = "<body></body>" ∧
     HTML.f renderRef (parseQuery "html") (document []) = "") := by
  have hf : HTML.f render q doc = firstNonEmpty render (topMatches q doc) :=
    f_topMatches render q doc [] (by intro a ha; cases ha)
  have hmem : ∀ m ∈ topMatches q doc, m ∈ preorder doc ∧ q.matches m = true := by
    intro m hm
    obtain ⟨p, hp, rfl⟩ := List.mem_map.1 hm
    obtain ⟨hp1, hp2⟩ := List.mem_filter.1 hp
    refine ⟨?_, ?_⟩
    · rw [← preorderAnc_snd [] doc]
      exact List.mem_map_of_mem _ hp1
    · simp only [isTopMatch, Bool.and_eq_true] at hp2
      exact hp2.1
  refine ⟨hf, hmem, preorderAnc_snd [] doc, ?_, by decide, by decide, by decide, by decide,
    by decide⟩
  intro hne
  rw [hf] at hne ⊢
  obtain ⟨m, hm, he⟩ := firstNonEmpty_mem render _ hne
  exact ⟨m, (hmem m hm).1, (hmem m hm).2, he⟩

/-! ## Well-formed selectors are read as themselves -/

theorem char_toNat_valid (c : Char) :
    c.toNat < 0xD800 ∨ (0xDFFF < c.toNat ∧ c.toNat < 0x110000) := by
  have h := c.valid
  simpa [Char.toNat, UInt32.isValidChar, Nat.isValidChar] using h

theorem rangeRunes_encode (n : Nat) (hn : n < 0xD800 ∨ (0xDFFF < n ∧ n < 0x110000))
    (rest : List Nat) :
    rangeRunes 0 (encodeRune n ++ rest) = Char.ofNat n :: rangeRunes 0 rest := by
  by_cases h1 : n < 0x80
  · simp [encodeRune, h1, rangeRunes, decodeRune]
  · by_cases h2 : n < 0x800
    · have a1 : ¬ (0xC0 + n / 64 < 0x80) := by omega
      have a2 : ¬ (0xC0 + n / 64 < 0xC2) := by omega
      have a3 : 0xC0 + n / 64 < 0xE0 := by omega
      have a4 : isCont (0x80 + n % 64) = true := by
        simp only [isCont, Bool.and_eq_true, decide_eq_true_eq]; omega
      have a5 : (0xC0 + n / 64) % 32 * 64 + (0x80 + n % 64) % 64 = n := by omega
      simp only [encodeRune, if_neg h1, if_pos h2, List.cons_append, List.nil_append,
        rangeRunes, decodeRune, if_neg a1, if_neg a2, if_pos a3, a4, if_true, a5]
    · have h3 : ¬ ((0xD800 ≤ n ∧ n ≤ 0xDFFF) ∨ 0x10FFFF < n) := by omega
      by_cases h4 : n < 0x10000
      · have a1 : ¬ (0xE0 + n / 4096 < 0x80) := by omega
        have a2 : ¬ (0xE0 + n / 4096 < 0xC2) := by omega
        have a3 : ¬ (0xE0 + n / 4096 < 0xE0) := by omega
        have a4 : 0xE0 + n / 4096 < 0xF0 := by omega
        have a5 : (if 0xE0 + n / 4096 = 0xE0 then 0xA0 else 0x80) ≤ 0x80 + n / 64 % 64 ∧
            0x80 + n / 64 % 64 ≤ (if 0xE0 + n / 4096 = 0xED then 0x9F else 0xBF) := by
          constructor
          · split <;> omega
          · split <;> omega
        have a6 : isCont (0x80 + n % 64) = true := by
          simp only [isCont, Bool.and_eq_true, decide_eq_true_eq]; omega
        have a7 : (0xE0 + n / 4096) % 16 * 4096 + (0x80 + n / 64 % 64) % 64 * 64 +
            (0x80 + n % 64) % 64 = n := by omega
        simp only [encodeRune, if_neg h1, if_neg h2, if_neg h3, if_pos h4, List.cons_append,
          List.nil_append, rangeRunes, decodeRune, if_neg a1, if_neg a2, if_neg a3, if_pos a4,
          if_pos a5, a6, if_true, a7]
      · have a1 : ¬ (0xF0 + n / 262144 < 0x80) := by omega
        have a2 : ¬ (0xF0 + n / 262144 < 0xC2) := by omega
        have a3 : ¬ (0xF0 + n / 262144 < 0xE0) := by omega
        have a4 : ¬ (0xF0 + n / 262144 < 0xF0) := by omega
        have a5 : 0xF0 + n / 262144 < 0xF5 := by omega
        have a6 : (if 0xF0 + n / 262144 = 0xF0 then 0x90 else 0x80) ≤ 0x80 + n / 4096 % 64 ∧
            0x80 + n / 4096 % 64 ≤ (if 0xF0 + n / 262144 = 0xF4 then 0x8F else 0xBF) := by
          constructor
          · split <;> omega
          · split <;> omega
        have a7 : isCont (0x80 + n / 64 % 64) = true := by
          simp only [isCont, Bool.and_eq_true, decide_eq_true_eq]; omega
        have a8 : isCont (0x80 + n % 64) = true := by
          simp only [isCont, Bool.and_eq_true, decide_eq_true_eq]; omega
        have a9 : (0xF0 + n / 262144) % 8 * 262144 + (0x80 + n / 4096 % 64) % 64 * 4096 +
            (0x80 + n / 64 % 64) % 64 * 64 + (0x80 + n % 64) % 64 = n := by omega
        simp only [encodeRune, if_neg h1, if_neg h2, if_neg h3, if_neg h4, List.cons_append,
          List.nil_append, rangeRunes, decodeRune, if_neg a1, if_neg a2, if_neg a3, if_neg a4,
          if_pos a5, if_pos a6, a7, a8, if_true, a9]

theorem rangeRunes_utf8 (l : List Char) (rest : List Nat) :
    rangeRunes 0 (l.flatMap (fun c => encodeRune c.toNat) ++ rest) = l ++ rangeRunes 0 rest := by
  induction l with
  | nil => simp
  | cons c cs ih =>
    rw [List.flatMap_cons, List.append_assoc, rangeRunes_encode c.toNat (char_toNat_valid c), ih,
      Char.ofNat_toNat]
    rfl

/-- A well-formed selector is read by the scan as itself. -/
theorem decodeString_utf8 (s : String) : decodeString (utf8 s) = s := by
  have h := rangeRunes_utf8 s.data []
  have h0 : rangeRunes 0 [] = [] := rfl
  rw [List.append_nil, h0, List.append_nil] at h
  unfold decodeString utf8
  rw [h]

theorem parseQueryBytes_utf8 (s : String) : parseQueryBytes (utf8 s) = parseQuery s := by
  rw [parseQueryBytes, decodeString_utf8]

/-! ## The search on the trees that the parser returns -/

theorem preorderList_append (xs ys : List Node) :
    preorderList (xs ++ ys) = preorderList xs ++ preorderList ys := by
  induction xs with
  | nil => simp [preorderList]
  | cons x rest ih => simp [preorderList, ih]

theorem fLoop_append (render : Node → String) (q : query) (xs ys : List Node) :
    HTML.fLoop render q (xs ++ ys) =
      if HTML.fLoop render q xs ≠ "" then HTML.fLoop render q xs
      else HTML.fLoop render q ys := by
  induction xs with
  | nil => simp [HTML.fLoop]
  | cons x rest ih =>
    rw [List.cons_append, fLoop_cons, fLoop_cons, ih]
    by_cases h : HTML.f render q x = ""
    · simp [h]
    · simp [h]

theorem parsedAttrs_no_id_class (n : Node) (hn : n.Typ ≠ NodeType.ElementNode)
    (hp : parsedAttrs n) :
    ∀ a ∈ n.Attr, a.Key ≠ "id" ∧ a.Key ≠ "ID" ∧ a.Key ≠ "class" ∧ a.Key ≠ "CLASS" := by
  intro a ha
  unfold parsedAttrs at hp
  cases ht : n.Typ with
  | ElementNode => exact absurd ht hn
  | DoctypeNode =>
    rw [ht] at hp
    rcases hp a ha with h | h <;> rw [h] <;> decide
  | ErrorNode => rw [ht] at hp; simp only at hp; rw [hp] at ha; cases ha
  | TextNode => rw [ht] at hp; simp only at hp; rw [hp] at ha; cases ha
  | DocumentNode => rw [ht] at hp; simp only at hp; rw [hp] at ha; cases ha
  | CommentNode => rw [ht] at hp; simp only at hp; rw [hp] at ha; cases ha
  | RawNode => rw [ht] at hp; simp only at hp; rw [hp] at ha; cases ha

/-- A node that is not an element and has the attributes of a parsed node
matches only the all-empty query, which matches every node. -/
theorem match_non_element_all (q : query) (c n : Node) (hc : c.Typ ≠ NodeType.ElementNode)
    (hp : parsedAttrs c) (hm : q.matches c = true) : q.matches n = true := by
  have hname : q.name = "" := by
    have := ((matches_iff q c).1 hm).1
    rcases (matchesName_iff q c).1 this with h | h
    · exact h
    · exact absurd h.1 hc
  have hrest : ¬ (q.id ≠ "" ∨ q.classes ≠ []) := by
    intro hq
    have := matches_without_id_class_attr q c hq (parsedAttrs_no_id_class c hc hp)
    rw [hm] at this
    cases this
  have hid : q.id = "" := by
    by_contra h
    exact hrest (Or.inl h)
  have hcl : q.classes = [] := by
    by_contra h
    exact hrest (Or.inr h)
  simp [query.matches, query.matchesName, query.matchesID, query.matchesClasses, hname, hid, hcl]

theorem preorderList_leaves (l : List Node) (hl : ∀ c ∈ l, c.children = []) :
    preorderList l = l := by
  induction l with
  | nil => simp [preorderList]
  | cons x rest ih =>
    have hx := hl x (List.mem_cons_self _ _)
    rw [preorderList, preorder_eq, hx, ih (fun c hc => hl c (List.mem_cons_of_mem _ hc))]
    simp [preorderList]

/-- C1. On a tree of the shape that `html.Parse` returns, serialized by a
renderer with the property of `html.Render` below, the search `f` of `HTML`
returns `nodeToString` of the first node in pre-order that satisfies
`query.matches`. The shape: the children of the document node are one element
`h` (the `html` element) and, before and after it, nodes that are not elements
(doctype, comments), without children and with the attributes of parsed nodes.
The renderer: every node below `h` has a non-empty `nodeToString`. The `html`
element itself and the document may serialize to the empty string. -/
theorem HTML_f_first_match (render : Node → String) (q : query) (d : String)
    (a : List Attribute) (before after : List Node) (h m : Node)
    (hsib : ∀ c ∈ before ++ after,
      c.Typ ≠ NodeType.ElementNode ∧ parsedAttrs c ∧ c.children = [])
    (hbelow : ∀ x ∈ preorderList h.children, nodeToString render x ≠ "")
    (hm : (preorder (Node.mk NodeType.DocumentNode d a (before ++ h :: after))).find?
      q.matches = some m) :
    HTML.f render q (Node.mk NodeType.DocumentNode d a (before ++ h :: after)) =
      nodeToString render m := by
  by_cases hroot : q.matches (Node.mk NodeType.DocumentNode d a (before ++ h :: after)) = true
  · exact f_first_or_root render q _ m hm (Or.inr hroot)
  · have hrootf : q.matches (Node.mk NodeType.DocumentNode d a (before ++ h :: after)) = false := by
      simpa using hroot
    have hnomatch : ∀ c ∈ before ++ after, q.matches c = false := by
      intro c hc
      cases hb : q.matches c with
      | false => rfl
      | true =>
        exact absurd (match_non_element_all q c _ (hsib c hc).1 (hsib c hc).2.1 hb) hroot
    have hbefore : ∀ x ∈ preorderList before, q.matches x = false := by
      rw [preorderList_leaves before
        (fun c hc => (hsib c (List.mem_append_left _ hc)).2.2)]
      exact fun x hx => hnomatch x (List.mem_append_left _ hx)
    have hafter : ∀ x ∈ preorderList after, q.matches x = false := by
      rw [preorderList_leaves after
        (fun c hc => (hsib c (List.mem_append_right _ hc)).2.2)]
      exact fun x hx => hnomatch x (List.mem_append_right _ hx)
    have hfb : HTML.fLoop render q before = "" := fLoop_no_match render q before hbefore
    have hfa : HTML.fLoop render q after = "" := fLoop_no_match render q after hafter
    have hf : HTML.f render q (Node.mk NodeType.DocumentNode d a (before ++ h :: after)) =
        HTML.f render q h := by
      rw [f_eq, hrootf]
      simp only [Node.children, Bool.false_eq_true, if_false]
      rw [fLoop_append, hfb, fLoop_cons, hfa]
      by_cases hh : HTML.f render q h = ""
      · simp [hh]
      · simp [hh]
    have hfind : (preorder h).find? q.matches = some m := by
      rw [preorder, List.find?_cons, hrootf, preorderList_append, List.find?_append,
        List.find?_eq_none.2 (fun x hx => by simp [hbefore x hx])] at hm
      rw [preorderList, List.find?_append] at hm
      cases hc : (preorder h).find? q.matches with
      | some m2 => rw [hc] at hm; simpa using hm
      | none =>
        rw [hc, List.find?_eq_none.2 (fun x hx => by simp [hafter x hx])] at hm
        simp at hm
    rw [hf]
    by_cases hh : q.matches h = true
    · exact f_first_or_root render q h m hfind (Or.inr hh)
    · have hhf : q.matches h = false := by simpa using hh
      have hmem : m ∈ preorderList h.children := by
        rw [preorder_eq, List.find?_cons, hhf] at hfind
        exact List.mem_of_find?_eq_some hfind
      exact f_first_or_root render q h m hfind (Or.inl (hbelow m hmem))

theorem HTML_f_first_match_witness :
    HTML.f renderRef (parseQuery "h1") docNested = "<h1>Hello World</h1>" ∧
    HTML.f renderRef (parseQuery "a.bar") docClasses = "<a class=\"bar\">2</a>" ∧
    (((preorder (document [])).find? (parseQuery "html").matches).map (nodeToString renderRef)
        = some "" ∧
      HTML.f renderRef (parseQuery "html") (document []) = "") := by
  refine ⟨?_, ?_, by decide, ?_⟩
  · have h := HTML_f_first_match renderRef (parseQuery "h1") "" [] [] []
      (elem "html" [elem "head" [], elem "body" [elem "p" [text "Foo "],
        elem "h1" [text "Hello World"], text " Bar", elem "p" []]])
      (elem "h1" [text "Hello World"]) (by intro c hc; simp at hc) (by decide) rfl
    exact h.trans (by decide)
  · have h := HTML_f_first_match renderRef (parseQuery "a.bar") "" [] [] []
      (elem "html" [elem "head" [], elem "body" [elemAttr "a" "class" "foo" [text "1"],
        elemAttr "a" "class" "bar" [text "2"], elemAttr "a" "class" "baz" [text "3"]]])
      (elemAttr "a" "class" "bar" [text "2"]) (by intro c hc; simp at hc) (by decide) rfl
    exact h.trans (by decide)
  · have h := HTML_f_first_match renderRef (parseQuery "html") "" [] [] []
      (elem "html" [elem "head" [], elem "body" []])
      (elem "html" [elem "head" [], elem "body" []]) (by intro c hc; simp at hc) (by decide) rfl
    exact h.trans (by decide)

/-- C10. For every query with a non-empty id or a non-empty list of classes and
every node that is not an Element node (text, comment, document, doctype), with
the attributes that the parser gives to such a node (none, and for a doctype
only `public` and `system`), `matches` returns false. -/
theorem matches_non_element (q : query) (n : Node)
    (hq : q.id ≠ "" ∨ q.classes ≠ [])
    (hn : n.Typ ≠ NodeType.ElementNode) (hp : parsedAttrs n) :
    q.matches n = false :=
  matches_without_id_class_attr q n hq (parsedAttrs_no_id_class n hn hp)

theorem matches_non_element_witness :
    (parseQuery "#b").matches (text "Hello World") = false ∧
    (parseQuery "a.bar").matches
      (Node.mk NodeType.DoctypeNode "html"
        [{ Namespace := "", Key := "public", Val := "-//W3C//DTD HTML 4.01//EN" }] []) = false ∧
    (parseQuery ".bar").matches (Node.mk NodeType.CommentNode " note " [] []) = false ∧
    (parseQuery "#b.bar").matches (document []) = false :=
  ⟨matches_non_element (parseQuery "#b") (text "Hello World") (Or.inl (by decide)) (by decide)
      (by simp [parsedAttrs, text, Node.Typ, Node.Attr]),
   matches_non_element (parseQuery "a.bar") _ (Or.inr (by decide)) (by decide)
      (by simp [parsedAttrs, Node.Typ, Node.Attr]),
   matches_non_element (parseQuery ".bar") _ (Or.inr (by decide)) (by decide)
      (by simp [parsedAttrs, Node.Typ, Node.Attr]),
   matches_non_element (parseQuery "#b.bar") (document []) (Or.inl (by decide)) (by decide)
      (by simp [parsedAttrs, document, Node.Typ, Node.Attr])⟩

/-! ## The compiled query of a selector given by its bytes -/

theorem utf8_append (a b : String) : utf8 (a ++ b) = utf8 a ++ utf8 b := by
  simp [utf8, String.data_append, List.flatMap_append]

theorem utf8_join (ss : List String) : utf8 (String.join ss) = (ss.map utf8).flatten := by
  induction ss with
  | nil => rfl
  | cons x rest ih =>
    have hj : String.join (x :: rest) = x ++ String.join rest := by
      apply String.ext
      simp [String.data_join, String.data_append]
    rw [hj, utf8_append, ih, List.map_cons, List.flatten_cons]

/-- C2, as stated, fails. The tag name with the bytes `61 FF 62` is not empty
and holds neither `#` nor `.`, but the byte `FF` is not well-formed UTF-8: the
scan reads it as U+FFFD and `parseQuery` returns the name `61 EF BF BD 62`. -/
theorem parseQueryBytes_token_counterexample :
    ([0x61, 0xFF, 0x62] ≠ ([] : List Nat) ∧ 0x23 ∉ [0x61, 0xFF, 0x62] ∧
      0x2E ∉ [0x61, 0xFF, 0x62]) ∧
    utf8 (parseQueryBytes [0x61, 0xFF, 0x62]).name = [0x61, 0xEF, 0xBF, 0xBD, 0x62] ∧
    utf8 (parseQueryBytes [0x61, 0xFF, 0x62]).name ≠ [0x61, 0xFF, 0x62] := by
  decide

/-- C2, amended. For a tag name `t` (possibly omitted: `t = ""`), an optional id
`io` and class tokens `cs` that are well-formed UTF-8, each non-empty and free of
`#` and `.`, every selector whose bytes are those of `t` followed by those of the
segments `"#" ++ i` and `"." ++ c` in any order is compiled by `parseQuery` to
name `t`, id `i` (empty when the id segment is omitted) and classes that are
exactly the tokens of `cs`, with `len(classes) = len(cs)`. -/
theorem parseQueryBytes_roundtrip (t : String) (io : Option String) (cs segs : List String)
    (ht : noDelim t)
    (hi : ∀ i ∈ io, i ≠ "" ∧ noDelim i)
    (hcs : ∀ c ∈ cs, c ≠ "" ∧ noDelim c)
    (hp : segs.Perm (io.toList.map (fun i => "#" ++ i) ++ cs.map (fun c => "." ++ c))) :
    (parseQueryBytes (utf8 t ++ (segs.map utf8).flatten)).name = t ∧
    (parseQueryBytes (utf8 t ++ (segs.map utf8).flatten)).id = io.getD "" ∧
    (parseQueryBytes (utf8 t ++ (segs.map utf8).flatten)).classes.Perm cs ∧
    (parseQueryBytes (utf8 t ++ (segs.map utf8).flatten)).classes.length = cs.length := by
  have hsel : utf8 t ++ (segs.map utf8).flatten = utf8 (t ++ String.join segs) := by
    rw [utf8_append, utf8_join]
  rw [hsel, parseQueryBytes_utf8]
  exact parseQuery_tokens t io cs segs ht hi hcs hp

theorem parseQueryBytes_roundtrip_witness :
    (utf8 "h2" ++ ([".foo", ".bar"].map utf8).flatten
        = [0x68, 0x32, 0x2E, 0x66, 0x6F, 0x6F, 0x2E, 0x62, 0x61, 0x72] ∧
      noDelim "h2" ∧ (∀ c ∈ ["foo", "bar"], c ≠ "" ∧ noDelim c)) ∧
    ((parseQueryBytes (utf8 "h2" ++ ([".foo", ".bar"].map utf8).flatten)).name = "h2" ∧
     (parseQueryBytes (utf8 "h2" ++ ([".foo", ".bar"].map utf8).flatten)).id = "" ∧
     (parseQueryBytes (utf8 "h2" ++ ([".foo", ".bar"].map utf8).flatten)).classes.Perm
        ["foo", "bar"] ∧
     (parseQueryBytes (utf8 "h2" ++ ([".foo", ".bar"].map utf8).flatten)).classes.length = 2) ∧
    ((parseQueryBytes (utf8 "" ++ ([".bar", "#foo"].map utf8).flatten)).name = "" ∧
     (parseQueryBytes (utf8 "" ++ ([".bar", "#foo"].map utf8).flatten)).id = "foo" ∧
     (parseQueryBytes (utf8 "" ++ ([".bar", "#foo"].map utf8).flatten)).classes.Perm ["bar"] ∧
     (parseQueryBytes (utf8 "" ++ ([".bar", "#foo"].map utf8).flatten)).classes.length = 1) ∧
    ((parseQueryBytes (utf8 "h1" ++ (([] : List String).map utf8).flatten)).name = "h1" ∧
     (parseQueryBytes (utf8 "h1" ++ (([] : List String).map utf8).flatten)).id = "" ∧
     (parseQueryBytes (utf8 "h1" ++ (([] : List String).map utf8).flatten)).classes.Perm [] ∧
     (parseQueryBytes (utf8 "h1" ++ (([] : List String).map utf8).flatten)).classes.length = 0) :=
  ⟨by decide,
   parseQueryBytes_roundtrip "h2" none ["foo", "bar"] [".foo", ".bar"] (by decide)
     (by intro i hi; cases hi) (by decide) (List.Perm.refl _),
   parseQueryBytes_roundtrip "" (some "foo") ["bar"] [".bar", "#foo"] (by decide)
     (by intro i hi; cases hi; decide) (by decide) (List.Perm.swap _ _ _),
   parseQueryBytes_roundtrip "h1" none [] [] (by decide)
     (by intro i hi; cases hi) (by decide) (List.Perm.refl _)⟩

/-- C15, as stated, fails. The selector with the bytes `61 FF 62 2E 63` has the
initial segment `61 FF 62`, but `parseQuery` returns the name `61 EF BF BD 62`:
the byte `FF`, which is not well-formed UTF-8, is read as U+FFFD. -/
theorem parseQueryBytes_initial_segment_counterexample :
    initialSegmentBytes [0x61, 0xFF, 0x62, 0x2E, 0x63] = [0x61, 0xFF, 0x62] ∧
    utf8 (parseQueryBytes [0x61, 0xFF, 0x62, 0x2E, 0x63]).name
      = [0x61, 0xEF, 0xBF, 0xBD, 0x62] ∧
    utf8 (parseQueryBytes [0x61, 0xFF, 0x62, 0x2E, 0x63]).name
      ≠ initialSegmentBytes [0x61, 0xFF, 0x62, 0x2E, 0x63] := by
  decide

/-- C15, amended. For every selector, given by its bytes, take the selector as
the scan reads it: its runes, where every byte that is not part of a well-formed
UTF-8 encoding is read as U+FFFD (a well-formed selector is read as itself). Cut
it at each `#` and `.`: the initial segment has kind name, every later segment
the kind of the delimiter before it; the selector read is its initial segment
followed by the later segments with their delimiters, and no segment holds a
delimiter. Then `parseQuery` gives name = the initial segment, id = the last
non-empty id segment (empty if there is none) and classes = the non-empty class
segments in their order; `#a#b` gives id `b`. -/
theorem parseQueryBytes_by_segments (q : List Nat) :
    decodeString q = initialSegment (decodeString q) ++
      String.join ((laterSegments (decodeString q)).map segText) ∧
    noDelim (initialSegment (decodeString q)) ∧
    (∀ p ∈ laterSegments (decodeString q), (p.1 = 1 ∨ p.1 = 2) ∧ noDelim p.2) ∧
    (parseQueryBytes q).name = initialSegment (decodeString q) ∧
    (parseQueryBytes q).id = (idSegments (decodeString q)).getLast?.getD "" ∧
    (parseQueryBytes q).classes = classSegments (decodeString q) ∧
    (∀ s : String, decodeString (utf8 s) = s) ∧
    (parseQueryBytes (utf8 "#a#b") = { name := "", id := "b", classes := [] } ∧
     parseQueryBytes (utf8 "h2..foo#x.bar#")
       = { name := "h2", id := "x", classes := ["foo", "bar"] } ∧
     parseQueryBytes [0x61, 0xFF, 0x62, 0x2E, 0x63]
       = { name := String.mk ['a', Char.ofNat 0xFFFD, 'b'], id := "", classes := ["c"] }) := by
  refine ⟨selector_eq_segments _, initialSegment_noDelim _, laterSegments_spec _, ?_, ?_, ?_,
    decodeString_utf8, by decide, by decide, by decide⟩ <;>
    rw [parseQueryBytes, parseQuery_cut]

/-- C18, amended. `parseQuery` records a class token once for every non-empty
class segment that holds it, without removing duplicates: for every selector,
given by its bytes and cut as the scan reads it (every byte that is not part of
a well-formed UTF-8 encoding read as U+FFFD), every token occurs in the classes
as often as among the non-empty class segments, so the classes contain no token
twice exactly when these segments are pairwise distinct. The repetitions do not
change the result of `matches`: the query with the duplicates removed matches
the same nodes. -/
theorem parseQueryBytes_classes_count (q : List Nat) :
    (∀ c : String,
      (parseQueryBytes q).classes.count c = (classSegments (decodeString q)).count c) ∧
    ((parseQueryBytes q).classes.Nodup ↔ (classSegments (decodeString q)).Nodup) ∧
    (∀ n : Node,
      query.matches { parseQueryBytes q with classes := (parseQueryBytes q).classes.dedup } n =
        (parseQueryBytes q).matches n) ∧
    (classSegments (decodeString (utf8 "a.foo.foo")) = ["foo", "foo"] ∧
     (parseQueryBytes (utf8 "a.foo.foo")).classes = ["foo", "foo"] ∧
     (parseQueryBytes (utf8 "a.foo.foo")).classes.dedup = ["foo"] ∧
     (parseQueryBytes [0x2E, 0xFF, 0x2E, 0xFE]).classes
       = [String.mk [Char.ofNat 0xFFFD], String.mk [Char.ofNat 0xFFFD]]) := by
  have h : (parseQueryBytes q).classes = classSegments (decodeString q) := by
    rw [parseQueryBytes, parseQuery_cut]
  refine ⟨fun c => by rw [h], by rw [h], ?_, by decide, by decide, by decide, by decide⟩
  intro n
  exact matches_congr_classes _ _ n rfl rfl (fun c => List.mem_dedup)

/-- Every rune that the decoding step yields is a Unicode scalar value, so it is
a character. -/
theorem decodeRune_valid (bs : List Nat) :
    (decodeRune bs).1 < 0xD800 ∨ (0xDFFF < (decodeRune bs).1 ∧ (decodeRune bs).1 < 0x110000) := by
  rcases bs with _ | ⟨s0, _ | ⟨s1, _ | ⟨s2, _ | ⟨s3, t⟩⟩⟩⟩
  · simp [decodeRune, runeError]
  all_goals
    simp only [decodeRune]
    split_ifs <;> dsimp only [runeError] <;> omega

end Extract
